import Mathlib

/-!
Verification development for the tokenaisu Moses-tokenizer core
(src/lib.rs).  The Rust pipeline is shallowly embedded over `List Char`:
every regex pass of `moses_tokenize_line` becomes an executable scanning
function with the regex crate's leftmost, non-overlapping replacement
semantics, and the two fixed-point string-rewrite loops become fuel-indexed
loops whose fuel (one more than the number of characters they strictly
consume per iteration) makes them reach the same fixpoint as the source's
unbounded while loops.

Caller-supplied protected patterns are modelled as literal-string patterns
(the regex engine is an external crate; a literal pattern matches exactly
its own text, which is all the refuted and verified claims need), plus a
marker for a syntactically malformed pattern whose compilation fails.

Unicode character classes used by the regexes (letter, number, lowercase,
alphabetic) live in a `CharTables` record supplied to the pipeline; the
White_Space class is closed and is given exactly.  `asciiT` instantiates
the record on the ASCII range, where it agrees with the Unicode tables;
it is only ever applied to ASCII inputs in this file.

All definitions are structurally recursive so that they reduce inside the
kernel and concrete runs can be settled by `decide`.
-/

set_option maxRecDepth 100000

/-- Apostrophe character (U+0027). -/
def apoC : Char := Char.ofNat 39

/-- Double-quote character (U+0022). -/
def quotC : Char := Char.ofNat 34

/-- Backtick character (U+0060). -/
def btC : Char := Char.ofNat 96

/-- Middle-dot character (U+00B7), kept attached for Catalan. -/
def midC : Char := Char.ofNat 0xB7

/-- The Unicode White_Space property, as matched by Rust
    char::is_whitespace, str::split_whitespace and the regex class of
    whitespace: the closed list of White_Space code points. -/
def rustWS (c : Char) : Bool :=
  [0x09, 0x0A, 0x0B, 0x0C, 0x0D, 0x20, 0x85, 0xA0, 0x1680,
   0x2000, 0x2001, 0x2002, 0x2003, 0x2004, 0x2005, 0x2006, 0x2007, 0x2008,
   0x2009, 0x200A, 0x2028, 0x2029, 0x202F, 0x205F, 0x3000].contains c.toNat

/-- ASCII whitespace, as matched by str::split_ascii_whitespace (source
    line 368): space, tab, line feed, form feed, carriage return. -/
def asciiWS (c : Char) : Bool :=
  [0x20, 0x09, 0x0A, 0x0C, 0x0D].contains c.toNat

/-- Unicode character-class tables for the classes the pipeline's regexes
    use: isL is the regex class of letters, isN the class of numbers, isLl
    the lowercase class (char::is_lowercase), isAlpha char::is_alphabetic. -/
structure CharTables where
  isL : Char → Bool
  isN : Char → Bool
  isLl : Char → Bool
  isAlpha : Char → Bool

/-- The tables restricted to the ASCII range, where the core Char
    predicates coincide with the Unicode classes.  Only applied to ASCII
    inputs in this development. -/
def asciiT : CharTables where
  isL c := c.isAlpha
  isN c := c.isDigit
  isLl c := c.isLower
  isAlpha c := c.isAlpha

/-- Boolean prefix test on character lists. -/
def lpre : List Char → List Char → Bool
  | [], _ => true
  | _ :: _, [] => false
  | a :: as, b :: bs => a == b && lpre as bs

/-- Boolean infix (substring) test, str::contains for literal needles. -/
def linf (needle : List Char) : List Char → Bool
  | [] => needle.isEmpty
  | c :: rest => lpre needle (c :: rest) || linf needle rest

/-- Worker for `rall`: while the first argument is positive we are inside
    an already-replaced match and merely skip its remaining characters. -/
def rallAux (needle repl : List Char) : Nat → List Char → List Char
  | _, [] => []
  | skip + 1, _ :: rest => rallAux needle repl skip rest
  | 0, c :: rest =>
    if needle ≠ [] ∧ lpre needle (c :: rest) = true then
      repl ++ rallAux needle repl (needle.length - 1) rest
    else
      c :: rallAux needle repl 0 rest

/-- String::replace for a literal needle: replace every leftmost,
    non-overlapping occurrence of `needle` by `repl`.  (The sources only
    ever call it with a nonempty needle; an empty needle is treated as
    matching nowhere.) -/
def rall (needle repl s : List Char) : List Char := rallAux needle repl 0 s

/-- Worker for `wordsBy`: the first component is the run of non-separator
    characters the scan is currently inside (reading from the front), the
    second the words found after it. -/
def wordsByCore (p : Char → Bool) : List Char → List Char × List (List Char)
  | [] => ([], [])
  | c :: rest =>
    let r := wordsByCore p rest
    if p c then ([], if r.1 = [] then r.2 else r.1 :: r.2)
    else (c :: r.1, r.2)

/-- Split into the maximal runs of characters failing `p`
    (str::split_whitespace and str::split_ascii_whitespace, for the
    respective whitespace predicate). -/
def wordsBy (p : Char → Bool) (s : List Char) : List (List Char) :=
  if (wordsByCore p s).1 = [] then (wordsByCore p s).2
  else (wordsByCore p s).1 :: (wordsByCore p s).2

/-- Join a word list with single ASCII spaces
    (Vec::join with separator a space). -/
def joinSp : List (List Char) → List Char
  | [] => []
  | [w] => w
  | w :: ws => w ++ ' ' :: joinSp ws

/-- split_whitespace followed by join with single spaces: collapse all
    Unicode-whitespace runs to single ASCII spaces while trimming
    (source lines 103-110 and 131-135). -/
def wsCollapse (s : List Char) : List Char := joinSp (wordsBy rustWS s)

/-- split_ascii_whitespace followed by join: the clean-up pass of source
    lines 366-370. -/
def asciiCollapse (s : List Char) : List Char := joinSp (wordsBy asciiWS s)

/-- trim_end_matches of the newline character (source line 105): drop
    every trailing newline. -/
def trimNL (s : List Char) : List Char :=
  (s.reverse.dropWhile (fun c => c = '\n')).reverse

/-- Insert a space at the front and push one at the back
    (source lines 112-114). -/
def padEnds (s : List Char) : List Char := ' ' :: (s ++ [' '])

/-- The control-character filter of source line 117: the test is
    ch as u8 > 31.  Rust casts the char to u8 by truncation, so the kept
    characters are exactly those whose code point is greater than 31
    modulo 256. -/
def u8filter (s : List Char) : List Char :=
  s.filter (fun c => 31 < c.toNat % 256)

/-- The Normalizer step of moses_tokenize_line (source lines 103-117):
    strip trailing newlines, collapse whitespace runs, pad both ends with
    one space, then apply the u8-truncating control-character filter. -/
def normalizer (s : List Char) : List Char :=
  u8filter (padEnds (wsCollapse (trimNL s)))

/-- Drop all characters with code point at most 31, as the spec says. -/
def u8filter31 (s : List Char) : List Char := s.filter (fun c => 31 < c.toNat)

/-- Modelled from the spec (section 4.1): the Normalizer as specified,
    dropping exactly the characters whose code point is at most 31.
    Differs from `normalizer` only in the final filter, which here tests
    the full code point instead of its low byte. -/
def normalizerSpec (s : List Char) : List Char :=
  u8filter31 (padEnds (wsCollapse (trimNL s)))

/-- The target languages of the tokenizer (source lines 9-51). -/
inductive Lang
  | As | Bn | Ca | Cs | De | El | En | Es | Et | Fi | Fr | Ga | Gu | Hi
  | Hu | Is | It | Kn | Lt | Lv | Ml | Mni | Mr | Nl | Or | Pa | Pl | Pt
  | Ro | Ru | Sk | Sl | So | Sv | Ta | Tdt | Te | Yue | Zh
deriving DecidableEq

/-- The two kinds of nonbreaking prefix (nonbreaking_prefixes::PrefixType,
    used at source lines 337 and 348). -/
inductive PrefixType
  | always
  | numericOnly
deriving DecidableEq

/-- The digits of `n` in base ten, zero-padded to width three: the
    format specifier 03 used at source line 125. -/
def pad3 (n : Nat) : List Char :=
  let d := Nat.toDigits 10 n
  if d.length = 1 then '0' :: '0' :: d
  else if d.length = 2 then '0' :: d
  else d

/-- The substitution string THISISPROTECTED followed by the zero-padded
    counter (source line 125). -/
def phName (k : Nat) : List Char := ("THISISPROTECTED".toList) ++ pad3 k

/-- Worker for `protRep`; the Nat in the middle skips the remaining
    characters of an already-replaced match. -/
def protRepAux (p : List Char) :
    Nat → Nat → List Char → List Char × Nat × List (List Char × List Char)
  | k, _, [] => ([], k, [])
  | k, skip + 1, _ :: rest => protRepAux p k skip rest
  | k, 0, c :: rest =>
    if p ≠ [] ∧ lpre p (c :: rest) = true then
      let r := protRepAux p (k + 1) (p.length - 1) rest
      (phName k ++ r.1, r.2.1, (phName k, p) :: r.2.2)
    else
      let r := protRepAux p k 0 rest
      (c :: r.1, r.2.1, r.2.2)

/-- Regex::replace_all for the literal pattern `p` with the counting
    closure of source lines 123-129: every leftmost non-overlapping match
    is replaced by the substitution string for the running counter, and
    each (substitution, matched text) pair is recorded in order.  For a
    literal pattern the matched text caps[0] is the pattern itself. -/
def protRep (p : List Char) (k : Nat) (s : List Char) :
    List Char × Nat × List (List Char × List Char) :=
  protRepAux p k 0 s

/-- The protected-pattern loop of source lines 119-130.  Faithful to the
    source: each pattern is matched against the PRISTINE input `pristine`
    (the source passes `text`, not `tokenized_text`, to replace_all), and
    the result of each iteration overwrites the running text, while the
    counter keeps growing across patterns (it is the size of the
    accumulated map).  Returns the final text together with the recorded
    (substitution, matched text) pairs in insertion order.  (The source
    stores the pairs in a HashMap and later iterates it in unspecified
    order; insertion order is used here.  For the restoration pass the
    order is immaterial whenever no recorded text itself contains a
    substitution string.) -/
def protectLoop (pristine : List Char) :
    List (List Char) → Nat → List Char → List Char × List (List Char × List Char)
  | [], _, tok => (tok, [])
  | p :: ps, k, _ =>
    let r := protRep p k pristine
    let t := protectLoop pristine ps r.2.1 r.1
    (t.1, r.2.2 ++ t.2)

/-- Modelled from the spec (section 4.2, and mandated by section 9):
    cumulative protected-pattern application.  Identical to `protectLoop`
    except that each pattern is matched against the running text, so later
    patterns see the substitutions of earlier ones and the normalization. -/
def protectLoopCumulative :
    List (List Char) → Nat → List Char → List Char × List (List Char × List Char)
  | [], _, tok => (tok, [])
  | p :: ps, k, tok =>
    let r := protRep p k tok
    let t := protectLoopCumulative ps r.2.1 r.1
    (t.1, r.2.2 ++ t.2)

/-- The keep-class of the general character-splitting rule (source line
    174): Unicode letters, numbers, whitespace, period, apostrophe,
    backtick, comma, hyphen. -/
def keepDefault (T : CharTables) (c : Char) : Bool :=
  T.isL c || T.isN c || rustWS c || c == '.' || c == apoC || c == btC ||
    c == ',' || c == '-'

/-- The Finnish/Swedish keep-class (source line 143): additionally the
    colon. -/
def keepFiSv (T : CharTables) (c : Char) : Bool :=
  keepDefault T c || c == ':'

/-- The Catalan keep-class (source line 165): additionally the middle
    dot. -/
def keepCa (T : CharTables) (c : Char) : Bool :=
  keepDefault T c || c == midC

/-- Worker for `scanRw`: while the first argument is positive we are
    inside an already-replaced match and merely skip its remaining
    characters. -/
def scanRwAux (step : List Char → Option (List Char × Nat)) :
    Nat → List Char → List Char
  | skip + 1, _ :: rest => scanRwAux step skip rest
  | _, [] => []
  | 0, c :: rest =>
    match step (c :: rest) with
    | some (e, n) => e ++ scanRwAux step n rest
    | none => c :: scanRwAux step 0 rest

/-- Generic regex replace_all scanner: at each position, `step` either
    matches (returning the replacement text and the number of consumed
    characters minus one) or fails, in which case the scan emits the
    current character and advances by one.  Matches are found leftmost
    and do not overlap, as in the regex engine. -/
def scanRw (step : List Char → Option (List Char × Nat)) (s : List Char) :
    List Char :=
  scanRwAux step 0 s

/-- replace_all of a one-character class with spaces around the matched
    character: the general splitting pass. -/
def splitByClass (keep : Char → Bool) (s : List Char) : List Char :=
  (s.map (fun c => if keep c then [c] else [' ', c, ' '])).flatten

/-- Match step for the target character when not immediately followed by
    a lowercase character (a lookahead, so only the target itself is
    consumed). -/
def snlStep (T : CharTables) (x : Char) : List Char → Option (List Char × Nat)
  | c :: rest =>
    if c == x && (match rest with | [] => true | d :: _ => !(T.isLl d)) then
      some ([' ', c, ' '], 0)
    else none
  | [] => none

/-- replace_all of the target character when not immediately followed by a
    lowercase character: the extra colon/apostrophe/middle-dot passes of
    source lines 146-148, 156-160, 168-170. -/
def splitNoLowerNext (T : CharTables) (x : Char) (s : List Char) : List Char :=
  scanRw (snlStep T x) s

/-- The language dispatch for character-class splitting
    (source lines 138-177). -/
def charClassStage (T : CharTables) (lang : Lang) (s : List Char) : List Char :=
  match lang with
  | .Fi | .Sv => splitNoLowerNext T ':' (splitByClass (keepFiSv T) s)
  | .Tdt => splitNoLowerNext T apoC (splitByClass (keepDefault T) s)
  | .Ca => splitNoLowerNext T midC (splitByClass (keepCa T) s)
  | _ => splitByClass (keepDefault T) s

/-- Match step for aggressive hyphen splitting: a letter/digit and a
    hyphen are consumed when a letter/digit follows (by lookahead). -/
def hyphenStep (T : CharTables) : List Char → Option (List Char × Nat)
  | c :: d :: e :: _ =>
    if (T.isL c || T.isN c) && d == '-' && (T.isL e || T.isN e) then
      some (c :: (" @-@ ".toList), 1)
    else none
  | _ => none

/-- Aggressive hyphen splitting (source lines 180-186): a hyphen between
    a letter/digit and a letter/digit (the latter by lookahead) becomes
    the padded marker. -/
def aggrHyphen (T : CharTables) (s : List Char) : List Char :=
  scanRw (hyphenStep T) s

/-- Match step for multi-dot tagging: a whole run of two or more periods
    is consumed and replaced by a space, the tag DOTMULTI, and the run
    minus its first period. -/
def mdtStep : List Char → Option (List Char × Nat)
  | c :: d :: rest =>
    if c = '.' ∧ d = '.' then
      some ((" DOTMULTI".toList) ++ ('.' :: rest.takeWhile (fun x => x == '.')),
        1 + (rest.takeWhile (fun x => x == '.')).length)
    else none
  | _ => none

/-- Multi-dot tagging (source lines 189-192). -/
def multiDotTag (s : List Char) : List Char := scanRw mdtStep s

/-- The literal DOTMULTI followed by a period (the needle of source lines
    193-197). -/
def dmDotPat : List Char := "DOTMULTI.".toList

/-- The literal DOTMULTI. -/
def dmTag : List Char := "DOTMULTI".toList

/-- The literal DOTDOTMULTI. -/
def ddmTag : List Char := "DOTDOTMULTI".toList

/-- Match step for the first multi-dot normalization pass: DOTMULTI, a
    period and a captured non-period character are consumed and replaced
    by DOTDOTMULTI, a space and the captured character. -/
def dm1Step (s : List Char) : Option (List Char × Nat) :=
  if lpre dmDotPat s = true then
    match s.drop 9 with
    | d :: _ => if d = '.' then none else some (("DOTDOTMULTI ".toList) ++ [d], 9)
    | [] => none
  else none

/-- replace_all of DOTMULTI-period followed by a captured non-period
    character with DOTDOTMULTI, a space, and the captured character
    (source lines 194-202). -/
def dotmultiStep1 (s : List Char) : List Char := scanRw dm1Step s

/-- replace_all of any remaining DOTMULTI-period with DOTDOTMULTI
    (source lines 196-206). -/
def dotmultiStep2 (s : List Char) : List Char := rall dmDotPat ddmTag s

/-- The multi-dot normalization loop of source lines 198-207: while the
    text contains DOTMULTI-period, run the two replacement passes.  Each
    iteration of the source loop removes at least one period, so running
    it with fuel one more than the number of periods reaches exactly the
    fixpoint of the source's while loop. -/
def dotmultiLoop : Nat → List Char → List Char
  | 0, s => s
  | fuel + 1, s =>
    if linf dmDotPat s then dotmultiLoop fuel (dotmultiStep2 (dotmultiStep1 s))
    else s

/-- The number of periods in the text. -/
def countDot (s : List Char) : Nat := s.countP (fun c => c == '.')

/-- Match step for comma pass one: a non-number and a following comma. -/
def commaStep1 (T : CharTables) : List Char → Option (List Char × Nat)
  | c :: d :: _ =>
    if d == ',' && !(T.isN c) then some ([c, ' ', ',', ' '], 1) else none
  | _ => none

/-- Comma pass one (source lines 210-214): a non-number followed by a
    comma has spaces inserted around the comma. -/
def commaPass1 (T : CharTables) (s : List Char) : List Char :=
  scanRw (commaStep1 T) s

/-- Match step for comma pass two: a comma and a following non-number. -/
def commaStep2 (T : CharTables) : List Char → Option (List Char × Nat)
  | c :: d :: _ =>
    if c == ',' && !(T.isN d) then some ([' ', ',', ' ', d], 1) else none
  | _ => none

/-- Comma pass two (source lines 215-219): a comma followed by a
    non-number gets spaces around the comma. -/
def commaPass2 (T : CharTables) (s : List Char) : List Char :=
  scanRw (commaStep2 T) s

/-- Comma pass three (source lines 222-226): a number followed by a comma
    at the very end of the text gets a space before the comma. -/
def commaPass3 (T : CharTables) (s : List Char) : List Char :=
  match s.reverse with
  | c0 :: c1 :: rest =>
    if c0 = ',' ∧ T.isN c1 = true then (',' :: ' ' :: c1 :: rest).reverse else s
  | _ => s

/-- Match step for a three-character apostrophe contraction rule: a
    character satisfying `p1`, an apostrophe, then a character satisfying
    `p2`, rewritten to the first character, the in-fill `mid`, and the
    second character; all three are consumed per match. -/
def apoStep (p1 p2 : Char → Bool) (mid : List Char) :
    List Char → Option (List Char × Nat)
  | c1 :: a :: c2 :: _ =>
    if a == apoC && p1 c1 && p2 c2 then some ((c1 :: mid) ++ [c2], 2) else none
  | _ => none

/-- One three-character apostrophe contraction rule as a replace_all. -/
def apoRule3 (p1 p2 : Char → Bool) (mid : List Char) (s : List Char) : List Char :=
  scanRw (apoStep p1 p2 mid) s

/-- English contraction splitting (source lines 230-263): the five
    right-split rules in source order. -/
def contractionEn (T : CharTables) (s : List Char) : List Char :=
  let m3 : List Char := [' ', apoC, ' ']
  let m2 : List Char := [' ', apoC]
  let s1 := apoRule3 (fun c => !(T.isL c)) (fun c => !(T.isL c)) m3 s
  let s2 := apoRule3 (fun c => !(T.isL c) && !(T.isN c)) (fun c => T.isL c) m3 s1
  let s3 := apoRule3 (fun c => T.isL c) (fun c => !(T.isL c)) m3 s2
  let s4 := apoRule3 (fun c => T.isL c) (fun c => T.isL c) m2 s3
  apoRule3 (fun c => T.isN c) (fun c => c == 's') m2 s4

/-- Left contraction splitting for French, Italian, Irish, Catalan
    (source lines 264-290). -/
def contractionFr (T : CharTables) (s : List Char) : List Char :=
  let m3 : List Char := [' ', apoC, ' ']
  let mL : List Char := [apoC, ' ']
  let s1 := apoRule3 (fun c => !(T.isL c)) (fun c => !(T.isL c)) m3 s
  let s2 := apoRule3 (fun c => !(T.isL c)) (fun c => T.isL c) m3 s1
  let s3 := apoRule3 (fun c => T.isL c) (fun c => !(T.isL c)) m3 s2
  apoRule3 (fun c => T.isL c) (fun c => T.isL c) mL s3

/-- Glottal-preserving contraction splitting for Somali and Tetun
    (source lines 291-311). -/
def contractionSo (T : CharTables) (s : List Char) : List Char :=
  let m3 : List Char := [' ', apoC, ' ']
  let s1 := apoRule3 (fun c => !(T.isL c)) (fun c => !(T.isL c)) m3 s
  let s2 := apoRule3 (fun c => !(T.isL c)) (fun c => T.isL c) m3 s1
  apoRule3 (fun c => T.isL c) (fun c => !(T.isL c)) m3 s2

/-- The contraction-splitting dispatch (source lines 229-320); the
    default branch surrounds every apostrophe with spaces. -/
def contractionStage (T : CharTables) (lang : Lang) (s : List Char) : List Char :=
  match lang with
  | .En => contractionEn T s
  | .Fr | .It | .Ga | .Ca => contractionFr T s
  | .So | .Tdt => contractionSo T s
  | _ => rall [apoC] ([' ', apoC, ' ']) s

/-- The capture of the word regex at source line 325: some prefix iff the
    token is one or more non-whitespace characters followed by a final
    period. -/
def periodCapture (w : List Char) : Option (List Char) :=
  match w.reverse with
  | c0 :: r1 :: rrest =>
    if c0 = '.' ∧ (r1 :: rrest).all (fun c => !(rustWS c)) = true then
      some ((r1 :: rrest).reverse)
    else none
  | _ => none

/-- Whether the optional next token starts with a character satisfying
    `p` (source pattern words[i+1].chars().next().map_or(false, ..)). -/
def nextHeadIs (p : Char → Bool) : Option (List Char) → Bool
  | some (c :: _) => p c
  | _ => false

/-- The per-word decision of the abbreviation resolver (source lines
    326-360).  `dict` is the nonbreaking-prefix lookup for the active
    language; the nonbreaking_prefixes module itself is not part of the
    repository snapshot, so the table is an abstract read-only mapping
    here, exactly as the source uses it. -/
def processWord (T : CharTables) (dict : List Char → Option PrefixType)
    (isLast : Bool) (next : Option (List Char)) (w : List Char) : List Char :=
  match periodCapture w with
  | none => w
  | some pre =>
    if isLast then pre ++ (" .".toList)
    else if (pre.contains '.' = true ∧ pre.any T.isAlpha = true)
        ∨ dict pre = some PrefixType.always
        ∨ nextHeadIs T.isLl next = true then
      w
    else if dict pre = some PrefixType.numericOnly
        ∧ nextHeadIs Char.isDigit next = true then
      w
    else pre ++ (" .".toList)

/-- The word loop of source lines 323-363: process each
    whitespace-separated word (the last flag and the following word read
    off the remainder of the list) and push it with a trailing space. -/
def wordPass (T : CharTables) (dict : List Char → Option PrefixType) :
    List (List Char) → List Char
  | [] => []
  | w :: rest =>
    (processWord T dict rest.isEmpty rest.head? w ++ [' ']) ++ wordPass T dict rest

/-- The abbreviation-resolver stage: split on Unicode whitespace, process
    each word, rejoin (source lines 322-364). -/
def wordStage (T : CharTables) (dict : List Char → Option PrefixType)
    (s : List Char) : List Char :=
  wordPass T dict (wordsBy rustWS s)

/-- The replacement text of the period-apostrophe fix-up: period, space,
    apostrophe, space. -/
def fixRep : List Char := ['.', ' ', apoC, ' ']

/-- The period-apostrophe fix-up of source lines 372-374: a period, an
    apostrophe and an optional space at the end of the text are replaced
    by the split form. -/
def dotApoFix (s : List Char) : List Char :=
  match s.reverse with
  | c0 :: c1 :: rest2 =>
    if c0 = ' ' then
      match rest2 with
      | c2 :: rest3 =>
        if c1 = apoC ∧ c2 = '.' then rest3.reverse ++ fixRep else s
      | [] => s
    else if c0 = apoC ∧ c1 = '.' then rest2.reverse ++ fixRep else s
  | _ => s

/-- Protected-pattern restoration (source lines 376-380): replace each
    recorded substitution string by its recorded text, one
    String::replace per recorded pair. -/
def restoreProt (entries : List (List Char × List Char)) (s : List Char) : List Char :=
  entries.foldl (fun t e => rall e.1 e.2 t) s

/-- The DOTDOTMULTI unwinding loop of source lines 383-385: while the
    text contains DOTDOTMULTI, replace all of them by DOTMULTI-period.
    Each iteration of the source loop removes at least one letter D, so
    fuel one more than the number of D characters reaches the fixpoint of
    the source's while loop. -/
def restoreDotLoop : Nat → List Char → List Char
  | 0, s => s
  | fuel + 1, s =>
    if linf ddmTag s then restoreDotLoop fuel (rall ddmTag (dmTag ++ ['.']) s)
    else s

/-- The number of D characters in the text. -/
def countD (s : List Char) : Nat := s.countP (fun c => c == 'D')

/-- j copies of the letters DOT, the shape of a normalized multi-dot
    tag body. -/
def dotRep : Nat → List Char
  | 0 => []
  | j + 1 => 'D' :: 'O' :: 'T' :: dotRep j

/-- Multi-dot restoration (source lines 382-386): unwind DOTDOTMULTI,
    then replace the remaining DOTMULTI tags by periods. -/
def restoreMultiDot (s : List Char) : List Char :=
  rall dmTag (['.']) (restoreDotLoop (countD s + 1) s)

/-- The escaping pass of source lines 389-398: the eight String::replace
    calls in source order. -/
def escapeStage (s : List Char) : List Char :=
  rall ([']']) ("&#93;".toList)
    (rall (['[']) ("&#91;".toList)
      (rall ([quotC]) ("&quot;".toList)
        (rall ([apoC]) ("&apos;".toList)
          (rall (['>']) ("&gt;".toList)
            (rall (['<']) ("&lt;".toList)
              (rall (['|']) ("&#124;".toList)
                (rall (['&']) ("&amp;".toList) s)))))))

/-- Append a newline unless the text already ends with one
    (source lines 401-404). -/
def ensureNL (s : List Char) : List Char :=
  if s.getLast? = some '\n' then s else s ++ ['\n']

/-- moses_tokenize_line up to (and excluding) the escaping pass: the
    composition of sources lines 103-364 in source order, returning the
    text after the resolver stage and clean-up, together with the recorded
    protected-pattern pairs. -/
def afterResolver (T : CharTables) (lang : Lang) (aggr : Bool)
    (pats : List (List Char)) (dict : List Char → Option PrefixType)
    (text : List Char) : List Char × List (List Char × List Char) :=
  let t0 := normalizer text
  let pr := protectLoop text pats 0 t0
  let t1 := wsCollapse pr.1
  let t2 := charClassStage T lang t1
  let t3 := if aggr then aggrHyphen T t2 else t2
  let t4 := multiDotTag t3
  let t5 := dotmultiLoop (countDot t4 + 1) t4
  let t6 := commaPass3 T (commaPass2 T (commaPass1 T t5))
  let t7 := contractionStage T lang t6
  (asciiCollapse (wordStage T dict t7), pr.2)

/-- moses_tokenize_line before the escaping pass (source lines 103-386):
    the resolver output, the period-apostrophe fix-up, protected-pattern
    restoration and multi-dot restoration. -/
def preEscape (T : CharTables) (lang : Lang) (aggr : Bool)
    (pats : List (List Char)) (dict : List Char → Option PrefixType)
    (text : List Char) : List Char :=
  let a := afterResolver T lang aggr pats dict text
  restoreMultiDot (restoreProt a.2 (dotApoFix a.1))

/-- moses_tokenize_line (source lines 96-407) over compiled literal
    protected patterns. -/
def mosesTokenizeLine (T : CharTables) (lang : Lang)
    (noEscaping aggr : Bool) (pats : List (List Char))
    (dict : List Char → Option PrefixType) (text : List Char) : List Char :=
  let t := preEscape T lang aggr pats dict text
  ensureNL (if noEscaping then t else escapeStage t)

/-- Modelled from the spec (sections 4.2 and 9): moses_tokenize_line with
    the mandated cumulative protected-pattern application; identical to
    `mosesTokenizeLine` except that the pattern loop rewrites the running
    text instead of rewriting the pristine input. -/
def mosesTokenizeLineCumulative (T : CharTables) (lang : Lang)
    (noEscaping aggr : Bool) (pats : List (List Char))
    (dict : List Char → Option PrefixType) (text : List Char) : List Char :=
  let t0 := normalizer text
  let pr := protectLoopCumulative pats 0 t0
  let t1 := wsCollapse pr.1
  let t2 := charClassStage T lang t1
  let t3 := if aggr then aggrHyphen T t2 else t2
  let t4 := multiDotTag t3
  let t5 := dotmultiLoop (countDot t4 + 1) t4
  let t6 := commaPass3 T (commaPass2 T (commaPass1 T t5))
  let t7 := contractionStage T lang t6
  let t8 := dotApoFix (asciiCollapse (wordStage T dict t7))
  let t9 := restoreMultiDot (restoreProt pr.2 t8)
  ensureNL (if noEscaping then t9 else escapeStage t9)

/-- A caller-supplied protected-pattern source string: either a pattern
    matching exactly a literal text, or a syntactically malformed regex
    whose compilation fails. -/
inductive PatternSrc
  | lit : List Char → PatternSrc
  | malformed : PatternSrc

/-- Regex::new on a pattern source: malformed patterns fail to compile. -/
def compilePattern : PatternSrc → Option (List Char)
  | .lit p => some p
  | .malformed => none

/-- The failure condition of moses_tokenize: the unwrap at source line 81
    panics when Regex::new rejects a caller-supplied pattern.  The panic
    is modelled as this error value. -/
inductive TokenizeError
  | invalidPattern
deriving DecidableEq

/-- Split at newline characters, as an auxiliary for str::lines; the
    result is always nonempty. -/
def splitNl : List Char → List (List Char)
  | [] => [[]]
  | c :: rest =>
    if c = '\n' then [] :: splitNl rest
    else
      match splitNl rest with
      | [] => [[c]]
      | w :: ws => (c :: w) :: ws

/-- Strip one trailing carriage return. -/
def stripCR (s : List Char) : List Char :=
  match s.reverse with
  | c :: rest => if c = '\r' then rest.reverse else s
  | [] => s

/-- str::lines (source line 83): split at newlines, strip a carriage
    return preceding each newline, and drop a final empty segment (the
    final line ending is optional). -/
def rustLines (s : List Char) : List (List Char) :=
  let segs := splitNl s
  (segs.dropLast.map stripCR) ++
    (match segs.getLast? with
     | some w => if w = [] then [] else [w]
     | none => [])

/-- Compile the whole pattern list (the collect at source lines 79-82);
    any failure is the unwrap panic. -/
def compileAll : List PatternSrc → Option (List (List Char))
  | [] => some []
  | p :: ps =>
    match compilePattern p, compileAll ps with
    | some q, some qs => some (q :: qs)
    | _, _ => none

/-- moses_tokenize (source lines 72-94): compile every pattern (the
    unwrap panic on a malformed pattern becomes the invalidPattern
    error), then tokenize every line and concatenate. -/
def mosesTokenize (T : CharTables) (lang : Lang)
    (noEscaping aggr : Bool) (psrc : List PatternSrc)
    (dict : List Char → Option PrefixType) (text : List Char) :
    Except TokenizeError (List Char) :=
  match compileAll psrc with
  | none => .error .invalidPattern
  | some pats =>
    .ok (((rustLines text).map (mosesTokenizeLine T lang noEscaping aggr pats dict)).flatten)

/-- The empty nonbreaking-prefix table: every lookup misses. -/
def emptyDict : List Char → Option PrefixType := fun _ => none

/-- Modelled from the spec (section 4.7, token pattern): some prefix iff
    the token is one or more non-space characters followed by exactly one
    period (the character before the final period, when there is one, is
    not itself a period). -/
def specCapture (w : List Char) : Option (List Char) :=
  match w.reverse with
  | c0 :: r1 :: rrest =>
    if c0 = '.' ∧ r1 ≠ '.' ∧ (r1 :: rrest).all (fun c => !(rustWS c)) = true then
      some ((r1 :: rrest).reverse)
    else none
  | _ => none

/-- Modelled from the spec (section 4.7): the six resolver rules of the
    claim, applied in order to a token matching `specCapture`; all other
    tokens pass through unchanged. -/
def specResolve (T : CharTables) (dict : List Char → Option PrefixType)
    (isLast : Bool) (next : Option (List Char)) (w : List Char) : List Char :=
  match specCapture w with
  | none => w
  | some pre =>
    if isLast then pre ++ (" .".toList)
    else if pre.contains '.' = true ∧ pre.any T.isAlpha = true then w
    else if dict pre = some PrefixType.always then w
    else if nextHeadIs T.isLl next = true then w
    else if dict pre = some PrefixType.numericOnly
        ∧ nextHeadIs Char.isDigit next = true then w
    else pre ++ (" .".toList)

/-- The escaping table as a per-character homomorphism: each special
    character is replaced by exactly its designated entity, every other
    character is kept. -/
def escHom1 (c : Char) : List Char :=
  if c = '&' then "&amp;".toList
  else if c = '|' then "&#124;".toList
  else if c = '<' then "&lt;".toList
  else if c = '>' then "&gt;".toList
  else if c = apoC then "&apos;".toList
  else if c = quotC then "&quot;".toList
  else if c = '[' then "&#91;".toList
  else if c = ']' then "&#93;".toList
  else [c]

/-- The per-character escaping homomorphism extended to strings. -/
def escHom (s : List Char) : List Char := (s.map escHom1).flatten

/-- The characters the escaping pass must eliminate, apart from the
    ampersand that every entity reintroduces. -/
def sevenSpecials : List Char := ['|', '<', '>', apoC, quotC, '[', ']']

/-- Boolean suffix test. -/
def endsL (suf s : List Char) : Bool := lpre suf.reverse s.reverse

/-! ## Basic lemmas about the string utilities -/

theorem lpre_iff (n s : List Char) : lpre n s = true ↔ ∃ u, s = n ++ u := by
  induction n generalizing s with
  | nil => simp [lpre]
  | cons a as ih =>
    cases s with
    | nil => simp [lpre]
    | cons b bs =>
      simp only [lpre, Bool.and_eq_true, beq_iff_eq, ih]
      constructor
      · rintro ⟨rfl, u, rfl⟩
        exact ⟨u, rfl⟩
      · rintro ⟨u, hu⟩
        cases hu
        exact ⟨rfl, u, rfl⟩

theorem lpre_self_append (n u : List Char) : lpre n (n ++ u) = true :=
  (lpre_iff n (n ++ u)).2 ⟨u, rfl⟩

theorem lpre_mono {n a : List Char} (t : List Char) (h : lpre n a = true) :
    lpre n (a ++ t) = true := by
  rcases (lpre_iff n a).1 h with ⟨u, rfl⟩
  exact (lpre_iff _ _).2 ⟨u ++ t, by simp⟩

theorem lpre_append_left {n a : List Char} (t : List Char)
    (h : n.length ≤ a.length) : lpre n (a ++ t) = lpre n a := by
  induction n generalizing a with
  | nil => simp [lpre]
  | cons x n' ih =>
    cases a with
    | nil => simp at h
    | cons y a' =>
      simp only [List.cons_append, lpre, List.append_eq]
      rw [ih (by simpa using h)]

theorem linf_iff (n s : List Char) : linf n s = true ↔ ∃ u v, s = u ++ n ++ v := by
  induction s with
  | nil =>
    simp only [linf, List.isEmpty_iff]
    constructor
    · rintro rfl
      exact ⟨[], [], rfl⟩
    · rintro ⟨u, v, huv⟩
      have h0 := congrArg List.length huv
      simp only [List.length_nil, List.length_append] at h0
      exact List.eq_nil_of_length_eq_zero (by omega)
  | cons c rest ih =>
    simp only [linf, Bool.or_eq_true, lpre_iff, ih]
    constructor
    · rintro (⟨u, hu⟩ | ⟨u, v, hv⟩)
      · exact ⟨[], u, by simpa using hu⟩
      · exact ⟨c :: u, v, by simp [hv]⟩
    · rintro ⟨u, v, hv⟩
      cases u with
      | nil =>
        left
        exact ⟨v, by simpa using hv⟩
      | cons x u' =>
        simp only [List.cons_append] at hv
        injection hv with h1 h2
        exact Or.inr ⟨u', v, h2⟩

theorem linf_of_decomp {n : List Char} (u v : List Char) :
    linf n (u ++ n ++ v) = true :=
  (linf_iff _ _).2 ⟨u, v, rfl⟩

theorem rall_nil (n r : List Char) : rall n r [] = [] := rfl

theorem rallAux_skip (n r : List Char) (k : Nat) (s : List Char) :
    rallAux n r k s = rallAux n r 0 (s.drop k) := by
  induction k generalizing s with
  | zero => simp
  | succ k ih =>
    cases s with
    | nil => simp [rallAux]
    | cons c rest => simp [rallAux, ih, List.drop_succ_cons]

theorem rall_cons (n r : List Char) (c : Char) (rest : List Char) :
    rall n r (c :: rest) =
      if n ≠ [] ∧ lpre n (c :: rest) = true then
        r ++ rall n r ((c :: rest).drop n.length)
      else c :: rall n r rest := by
  simp only [rall, rallAux]
  split
  · next h =>
    rw [rallAux_skip]
    obtain ⟨m, hm⟩ : ∃ m, n.length = m + 1 := by
      cases n with
      | nil => exact absurd rfl h.1
      | cons x n' => exact ⟨n'.length, rfl⟩
    rw [hm]
    simp
  · rfl

theorem rall_no_head {n r t : List Char} {h : Char} (hh : n.head? = some h)
    (ht : h ∉ t) : rall n r t = t := by
  induction t with
  | nil => rfl
  | cons c rest ih =>
    rw [rall_cons, if_neg, ih (fun hmem => ht (List.mem_cons_of_mem _ hmem))]
    rintro ⟨hne, hp⟩
    cases n with
    | nil => simp at hh
    | cons x n' =>
      simp only [List.head?_cons, Option.some.injEq] at hh
      subst hh
      simp only [lpre, Bool.and_eq_true, beq_iff_eq] at hp
      exact ht (hp.1 ▸ List.mem_cons_self c rest)

theorem lpre_disjoint_le {n a t : List Char} (hp : lpre n (a ++ t) = true)
    (hdisj : ∀ c ∈ n, c ∉ t) (ht : t ≠ []) :
    n.length ≤ a.length := by
  induction n generalizing a with
  | nil => simp
  | cons x n' ih =>
    cases a with
    | nil =>
      exfalso
      cases t with
      | nil => exact ht rfl
      | cons y t' =>
        simp only [List.nil_append, lpre, Bool.and_eq_true, beq_iff_eq] at hp
        exact hdisj x (by simp) (hp.1 ▸ List.mem_cons_self y t')
    | cons y a' =>
      simp only [List.cons_append, lpre, Bool.and_eq_true, List.append_eq] at hp
      simp only [List.length_cons, Nat.succ_le_succ_iff]
      exact ih hp.2 (fun c hc => hdisj c (by simp [hc]))

theorem rall_append_disjoint_aux {n : List Char} (r : List Char) {t : List Char}
    (hn : n ≠ []) (hdisj : ∀ c ∈ n, c ∉ t) :
    ∀ fuel a, a.length ≤ fuel → rall n r (a ++ t) = rall n r a ++ t := by
  have base : rall n r t = t := by
    obtain ⟨h, n', rfl⟩ : ∃ h n', n = h :: n' := by
      cases n with
      | nil => exact absurd rfl hn
      | cons x n' => exact ⟨x, n', rfl⟩
    exact rall_no_head rfl (hdisj h (by simp))
  intro fuel
  induction fuel with
  | zero =>
    intro a ha
    have : a = [] := List.eq_nil_of_length_eq_zero (by omega)
    subst this
    simpa using base
  | succ fuel ih =>
    intro a ha
    cases a with
    | nil => simpa using base
    | cons c a' =>
      by_cases ht : t = []
      · subst ht
        simp
      rw [List.cons_append, rall_cons, rall_cons]
      by_cases hm : n ≠ [] ∧ lpre n (c :: (a' ++ t)) = true
      · have hlen : n.length ≤ (c :: a').length := by
          have := lpre_disjoint_le (a := c :: a') (by simpa using hm.2) hdisj ht
          simpa using this
        have hmr : n ≠ [] ∧ lpre n (c :: a') = true := by
          refine ⟨hn, ?_⟩
          have := lpre_append_left (n := n) (a := c :: a') t hlen
          rw [← this]
          simpa using hm.2
        rw [if_pos (by simpa using hm), if_pos hmr]
        have hdrop : ((c :: a') ++ t).drop n.length = (c :: a').drop n.length ++ t :=
          List.drop_append_of_le_length hlen
        have hlen2 : ((c :: a').drop n.length).length ≤ fuel := by
          simp only [List.length_drop, List.length_cons]
          have hnpos : 1 ≤ n.length := by
            cases n with
            | nil => exact absurd rfl hn
            | cons => simp
          simp only [List.length_cons] at ha
          omega
        rw [show (c :: (a' ++ t)) = (c :: a') ++ t from rfl, hdrop, ih _ hlen2]
        simp
      · have hmr : ¬ (n ≠ [] ∧ lpre n (c :: a') = true) := by
          rintro ⟨h1, h2⟩
          exact hm ⟨h1, by simpa using lpre_mono t h2⟩
        rw [if_neg (by simpa using hm), if_neg hmr]
        have : a'.length ≤ fuel := by
          simp only [List.length_cons] at ha
          omega
        rw [ih _ this]
        simp

theorem rall_append_disjoint {n : List Char} (r : List Char) {t : List Char}
    (hn : n ≠ []) (hdisj : ∀ c ∈ n, c ∉ t) (a : List Char) :
    rall n r (a ++ t) = rall n r a ++ t :=
  rall_append_disjoint_aux r hn hdisj a.length a le_rfl

theorem rall_hit_aux {n p : List Char} (hn : n ≠ []) :
    ∀ fuel a v, a.length ≤ fuel →
      ∃ u' v', rall n p (a ++ (n ++ v)) = u' ++ p ++ v' := by
  have base : ∀ v, ∃ u' v', rall n p (n ++ v) = u' ++ p ++ v' := by
    intro v
    obtain ⟨h, n', rfl⟩ : ∃ h n', n = h :: n' := by
      cases n with
      | nil => exact absurd rfl hn
      | cons x n' => exact ⟨x, n', rfl⟩
    rw [show (h :: n') ++ v = h :: (n' ++ v) from rfl, rall_cons,
      if_pos ⟨hn, by simpa using lpre_self_append (h :: n') v⟩]
    refine ⟨[], rall (h :: n') p ((h :: (n' ++ v)).drop (h :: n').length), ?_⟩
    simp
  intro fuel
  induction fuel with
  | zero =>
    intro a v ha
    have : a = [] := List.eq_nil_of_length_eq_zero (by omega)
    subst this
    simpa using base v
  | succ fuel ih =>
    intro a v ha
    cases a with
    | nil => simpa using base v
    | cons c a' =>
      rw [List.cons_append, rall_cons]
      by_cases hm : n ≠ [] ∧ lpre n (c :: (a' ++ (n ++ v))) = true
      · rw [if_pos hm]
        refine ⟨[], rall n p ((c :: (a' ++ (n ++ v))).drop n.length), ?_⟩
        simp
      · rw [if_neg hm]
        obtain ⟨u', v', hu⟩ := ih a' v (by simp only [List.length_cons] at ha; omega)
        exact ⟨c :: u', v', by simp [hu]⟩

theorem rall_hit {n p : List Char} (hn : n ≠ []) (a v : List Char) :
    ∃ u' v', rall n p (a ++ n ++ v) = u' ++ p ++ v' := by
  have := rall_hit_aux (p := p) hn a.length a v le_rfl
  simpa [List.append_assoc] using this

/-! ## Concrete evaluations settling the claims about the
      protected-pattern defect -/

/-- C3: the Normalizer step is claimed to drop exactly the characters with
    code point at most 31.  The code instead keeps a character iff its
    code point is greater than 31 modulo 256 (a truncating u8 cast), so
    the letter U+011F (code point 287, and 287 mod 256 = 31) is dropped
    from the line even though its code point exceeds 31, while the
    spec-faithful filter keeps it. -/
theorem c3_normalizer_drops_u011F :
    normalizer ("ağb".toList) = (" ab ".toList) ∧
    normalizerSpec ("ağb".toList) = (" ağb ".toList) ∧
    31 < Char.toNat (Char.ofNat 0x011F) := by
  refine ⟨?_, ?_, ?_⟩ <;> decide

/-- C1: protected patterns are claimed to be applied cumulatively, each
    pattern matching the text as already rewritten by normalization and by
    earlier patterns.  The code instead matches every pattern against the
    pristine input and overwrites the working text with the result, so on
    the line a-apostrophe-b space c with the two patterns (apostrophe,
    zzz) the first pattern's protection is discarded when the second
    pattern rewrites the pristine text, and the apostrophe gets split by
    the contraction stage; the spec-mandated cumulative variant keeps it
    protected. -/
theorem c1_protect_matches_pristine_text :
    mosesTokenizeLine asciiT .De true false [[apoC], ("zzz".toList)] emptyDict
        ['a', apoC, 'b', ' ', 'c']
      = ['a', ' ', apoC, ' ', 'b', ' ', 'c', '\n'] ∧
    mosesTokenizeLineCumulative asciiT .De true false [[apoC], ("zzz".toList)] emptyDict
        ['a', apoC, 'b', ' ', 'c']
      = ['a', apoC, 'b', ' ', 'c', '\n'] := by
  refine ⟨?_, ?_⟩ <;> decide

/-- C6 is claimed for every input string, with or without a trailing
    newline: the output of moses_tokenize_line ends with exactly one
    newline.  Because protected patterns are matched against the pristine
    input before its trailing newlines are stripped (the C1 defect), a
    pattern whose match ends in newlines smuggles them into the restored
    output: on the input x followed by two newlines, protected by the
    pattern matching exactly that text, the output is that very text,
    which ends with two newline characters. -/
theorem c6_two_trailing_newlines :
    mosesTokenizeLine asciiT .De true false [("x\n\n".toList)] emptyDict
        ("x\n\n".toList) = ("x\n\n".toList) ∧
    (("x\n\n".toList) : List Char).getLast? = some '\n' ∧
    (("x\n\n".toList) : List Char).dropLast.getLast? = some '\n' := by
  refine ⟨?_, ?_, ?_⟩ <;> decide

/-- C2 counterexample: with escaping enabled, a protected match containing
    an ampersand is not preserved byte-for-byte: restoration happens
    before the escaping pass (source lines 376-399), so the protected
    text x-ampersand-y is rewritten to x-amp-entity-y and no longer occurs
    in the output. -/
theorem c2_escaping_rewrites_protected_text :
    mosesTokenizeLine asciiT .De false false [("x&y".toList)] emptyDict
        ("x&y z".toList) = ("x&amp;y z\n".toList) ∧
    linf ("x&y".toList) ("x&amp;y z\n".toList) = false := by
  refine ⟨?_, ?_⟩ <;> decide

/-! ## moses_tokenize: pattern compilation and the newline discipline -/

theorem compileAll_none {psrc : List PatternSrc}
    (h : ∃ p ∈ psrc, compilePattern p = none) :
    compileAll psrc = none := by
  induction psrc with
  | nil => simp at h
  | cons q qs ih =>
    rcases h with ⟨p, hp, hc⟩
    rcases List.mem_cons.1 hp with rfl | hmem
    · simp [compileAll, hc]
    · cases hq : compilePattern q with
      | none => simp [compileAll, hq]
      | some v => simp [compileAll, hq, ih ⟨p, hmem, hc⟩]

/-- C7: a malformed caller-supplied protected pattern makes moses_tokenize
    fail before any text is processed.  In the source the Vec of patterns
    is compiled with unwrap before the line iterator runs (lines 79-82),
    so a compilation failure panics with no partial output; the panic is
    the invalidPattern error of the embedding, and the result does not
    depend on the text. -/
theorem c7_invalid_pattern_fails_fast (T : CharTables) (lang : Lang)
    (noEscaping aggr : Bool) (psrc : List PatternSrc)
    (dict : List Char → Option PrefixType) (text : List Char)
    (h : ∃ p ∈ psrc, compilePattern p = none) :
    mosesTokenize T lang noEscaping aggr psrc dict text
      = Except.error TokenizeError.invalidPattern := by
  unfold mosesTokenize
  rw [compileAll_none h]

/-- Witness for C7 at a concrete malformed pattern. -/
theorem c7_invalid_pattern_fails_fast_witness :
    (∃ p ∈ [PatternSrc.malformed], compilePattern p = none) ∧
    mosesTokenize asciiT Lang.En true false [PatternSrc.malformed] emptyDict
        ("abc".toList) = Except.error TokenizeError.invalidPattern :=
  ⟨⟨.malformed, by simp, rfl⟩,
   c7_invalid_pattern_fails_fast asciiT Lang.En true false [PatternSrc.malformed]
     emptyDict ("abc".toList) ⟨.malformed, by simp, rfl⟩⟩

theorem ensureNL_getLast (s : List Char) : (ensureNL s).getLast? = some '\n' := by
  unfold ensureNL
  split
  · next h => exact h
  · simp

theorem mosesTokenizeLine_getLast (T : CharTables) (lang : Lang)
    (noEscaping aggr : Bool) (pats : List (List Char))
    (dict : List Char → Option PrefixType) (text : List Char) :
    (mosesTokenizeLine T lang noEscaping aggr pats dict text).getLast?
      = some '\n' :=
  ensureNL_getLast _

theorem mosesTokenizeLine_ne_nil (T : CharTables) (lang : Lang)
    (noEscaping aggr : Bool) (pats : List (List Char))
    (dict : List Char → Option PrefixType) (text : List Char) :
    mosesTokenizeLine T lang noEscaping aggr pats dict text ≠ [] := by
  intro hnil
  have := mosesTokenizeLine_getLast T lang noEscaping aggr pats dict text
  rw [hnil] at this
  simp at this

theorem rustLines_nil : rustLines [] = [] := by decide

theorem splitNl_ne_nil (s : List Char) : splitNl s ≠ [] := by
  cases s with
  | nil => simp [splitNl]
  | cons c rest =>
    unfold splitNl
    split
    · simp
    · split <;> simp

theorem rustLines_ne_nil {s : List Char} (h : s ≠ []) : rustLines s ≠ [] := by
  cases s with
  | nil => exact absurd rfl h
  | cons c rest =>
    unfold rustLines splitNl
    split
    · -- c = newline: the first segment list has length at least two
      have h2 := splitNl_ne_nil rest
      cases hr : splitNl rest with
      | nil => exact absurd hr h2
      | cons w ws => simp
    · -- c is not a newline
      cases hr : splitNl rest with
      | nil => exact absurd hr (splitNl_ne_nil rest)
      | cons w ws =>
        cases ws with
        | nil => simp
        | cons w2 ws2 => simp

theorem flatten_getLast_nl {ls : List (List Char)} {f : List Char → List Char}
    (hne : ls ≠ [])
    (hl : ∀ l ∈ ls, (f l).getLast? = some '\n') :
    ((ls.map f).flatten).getLast? = some '\n' := by
  induction ls with
  | nil => exact absurd rfl hne
  | cons x xs ih =>
    cases xs with
    | nil => simpa using hl x (by simp)
    | cons y ys =>
      have hys := ih (by simp) (fun l hm => hl l (List.mem_cons_of_mem _ hm))
      have hfl : ((y :: ys).map f).flatten ≠ [] := by
        intro h0
        rw [h0] at hys
        simp at hys
      simp only [List.map_cons, List.flatten_cons] at hys hfl ⊢
      rw [List.getLast?_append_of_ne_nil _ hfl]
      exact hys

/-- C10: moses_tokenize returns the empty string exactly on the empty
    input, and on every non-empty input it returns a non-empty string
    ending in a newline.  str::lines yields no line for the empty input
    (so the map collects nothing), and at least one line otherwise, while
    every per-line result ends with a newline pushed at source lines
    401-404. -/
theorem c10_tokenize_empty_iff (T : CharTables) (lang : Lang)
    (noEscaping aggr : Bool) (psrc : List PatternSrc)
    (dict : List Char → Option PrefixType) (text out : List Char)
    (h : mosesTokenize T lang noEscaping aggr psrc dict text = .ok out) :
    (out = [] ↔ text = []) ∧ (text ≠ [] → out.getLast? = some '\n') := by
  unfold mosesTokenize at h
  cases hc : compileAll psrc with
  | none =>
    rw [hc] at h
    exact absurd h (by simp)
  | some pats =>
    rw [hc] at h
    have hout : out = ((rustLines text).map
        (mosesTokenizeLine T lang noEscaping aggr pats dict)).flatten := by
      cases h
      rfl
    have hlast : text ≠ [] → out.getLast? = some '\n' := by
      intro ht
      rw [hout]
      exact flatten_getLast_nl (rustLines_ne_nil ht)
        (fun l _ => mosesTokenizeLine_getLast T lang noEscaping aggr pats dict l)
    refine ⟨⟨?_, ?_⟩, hlast⟩
    · intro hnil
      by_contra ht
      have := hlast ht
      rw [hnil] at this
      simp at this
    · rintro rfl
      rw [hout, rustLines_nil]
      simp

/-- Witness for C10 at a lone newline input. -/
theorem c10_tokenize_empty_iff_witness :
    ((['\n'] : List Char) = [] ↔ ("\n".toList : List Char) = []) ∧
    (("\n".toList : List Char) ≠ [] → (['\n'] : List Char).getLast? = some '\n') :=
  c10_tokenize_empty_iff asciiT Lang.En true false [] emptyDict ("\n".toList)
    ['\n'] rfl

/-! ## The abbreviation resolver follows the six spec rules -/

/-- C4: on every token that does not end in two periods (multi-dot runs
    are tagged away before the resolver ever sees a token, so these are
    all the tokens the stage processes), the per-word decision of the
    source is exactly the six-rule cascade of the spec, applied in order,
    and it reads nothing but the token, the dictionary and the first
    character of the following token. -/
theorem c4_resolver_six_rules (T : CharTables)
    (dict : List Char → Option PrefixType) (isLast : Bool)
    (next : Option (List Char)) (w : List Char)
    (h : lpre ['.', '.'] w.reverse = false) :
    processWord T dict isLast next w = specResolve T dict isLast next w := by
  have hcap : specCapture w = periodCapture w := by
    unfold specCapture periodCapture
    cases hw : w.reverse with
    | nil => rfl
    | cons c0 rr =>
      cases rr with
      | nil => rfl
      | cons r1 rrest =>
        by_cases h0 : c0 = '.'
        · subst h0
          have hr1 : r1 ≠ '.' := by
            intro hr
            rw [hw, hr] at h
            simp [lpre] at h
          simp [hr1]
        · simp [h0]
  unfold processWord specResolve
  rw [hcap]
  cases hpc : periodCapture w with
  | none => rfl
  | some pre =>
    by_cases h1 : isLast
    · simp [h1]
    · by_cases hA1 : pre.contains '.' = true
        <;> by_cases hA2 : pre.any T.isAlpha = true
        <;> by_cases hB : dict pre = some PrefixType.always
        <;> by_cases hC : nextHeadIs T.isLl next = true
        <;> simp [h1, hA1, hA2, hB, hC]

/-- Witness for C4 on the token etc-period before a lowercase word. -/
theorem c4_resolver_six_rules_witness :
    lpre ['.', '.'] (("etc.".toList).reverse) = false ∧
    processWord asciiT emptyDict false (some ("x".toList)) ("etc.".toList)
      = specResolve asciiT emptyDict false (some ("x".toList)) ("etc.".toList) :=
  ⟨by decide,
   c4_resolver_six_rules asciiT emptyDict false (some ("x".toList))
     ("etc.".toList) (by decide)⟩

/-! ## The escaping pass is exactly the per-character entity table -/

theorem rall_single (d : Char) (r : List Char) (s : List Char) :
    rall [d] r s = (s.map (fun c => if c = d then r else [c])).flatten := by
  induction s with
  | nil => rfl
  | cons c rest ih =>
    rw [rall_cons]
    by_cases hc : c = d
    · subst hc
      rw [if_pos ⟨by simp, by simp [lpre]⟩]
      simp [ih]
    · rw [if_neg]
      · simp [hc, ih]
      · rintro ⟨h1, h2⟩
        simp only [lpre, Bool.and_eq_true, beq_iff_eq] at h2
        exact hc h2.1.symm

theorem rall_single_append (d : Char) (r a b : List Char) :
    rall [d] r (a ++ b) = rall [d] r a ++ rall [d] r b := by
  simp [rall_single, List.map_append, List.flatten_append]

theorem escapeStage_append (a b : List Char) :
    escapeStage (a ++ b) = escapeStage a ++ escapeStage b := by
  simp only [escapeStage, rall_single_append]

theorem escapeStage_singleton (c : Char) : escapeStage [c] = escHom1 c := by
  by_cases h1 : c = '&'
  · subst h1; decide
  by_cases h2 : c = '|'
  · subst h2; decide
  by_cases h3 : c = '<'
  · subst h3; decide
  by_cases h4 : c = '>'
  · subst h4; decide
  by_cases h5 : c = apoC
  · subst h5; decide
  by_cases h6 : c = quotC
  · subst h6; decide
  by_cases h7 : c = '['
  · subst h7; decide
  by_cases h8 : c = ']'
  · subst h8; decide
  simp [escapeStage, rall_single, escHom1, h1, h2, h3, h4, h5, h6, h7, h8]

theorem escapeStage_hom (s : List Char) : escapeStage s = escHom s := by
  induction s with
  | nil => rfl
  | cons c rest ih =>
    rw [show (c :: rest) = [c] ++ rest from rfl, escapeStage_append,
      escapeStage_singleton, ih]
    simp [escHom]

theorem escHom1_no_seven (d c : Char) (h : c ∈ escHom1 d) :
    sevenSpecials.contains c = false := by
  unfold escHom1 at h
  split_ifs at h <;>
    first
      | (fin_cases h <;> decide)
      | (simp only [List.mem_singleton] at h
         subst h
         simp_all [sevenSpecials])

theorem escHom_no_seven (s : List Char) (c : Char) (h : c ∈ escHom s) :
    sevenSpecials.contains c = false := by
  unfold escHom at h
  rcases List.mem_flatten.1 h with ⟨l, hl, hcl⟩
  rcases List.mem_map.1 hl with ⟨d, _, rfl⟩
  exact escHom1_no_seven d c hcl

/-- C8: with escaping enabled, the output of moses_tokenize_line is
    exactly the final-newline completion of the per-character entity
    homomorphism applied to the pre-escaping text (each occurrence of a
    special character is replaced by exactly its designated entity, and
    the chain of replaces never re-escapes an entity-introduced
    ampersand), and none of the other seven special characters occurs in
    the output. -/
theorem c8_escaping_exact_entities (T : CharTables) (lang : Lang)
    (aggr : Bool) (pats : List (List Char))
    (dict : List Char → Option PrefixType) (text : List Char) :
    mosesTokenizeLine T lang false aggr pats dict text
      = ensureNL (escHom (preEscape T lang aggr pats dict text)) ∧
    (mosesTokenizeLine T lang false aggr pats dict text).all
      (fun c => !(sevenSpecials.contains c)) = true := by
  have h1 : mosesTokenizeLine T lang false aggr pats dict text
      = ensureNL (escHom (preEscape T lang aggr pats dict text)) := by
    show ensureNL (escapeStage (preEscape T lang aggr pats dict text))
      = ensureNL (escHom (preEscape T lang aggr pats dict text))
    rw [escapeStage_hom]
  refine ⟨h1, ?_⟩
  rw [h1, List.all_eq_true]
  intro c hc
  have hmem : c ∈ escHom (preEscape T lang aggr pats dict text) ∨ c = '\n' := by
    unfold ensureNL at hc
    split at hc
    · exact Or.inl hc
    · rcases List.mem_append.1 hc with h | h
      · exact Or.inl h
      · simp at h
        exact Or.inr h
  rcases hmem with h | rfl
  · have := escHom_no_seven (preEscape T lang aggr pats dict text) c h
    simpa using this
  · decide

/-! ## The period-apostrophe fix-up -/

theorem endsL_iff (suf s : List Char) : endsL suf s = true ↔ ∃ a, s = a ++ suf := by
  unfold endsL
  rw [lpre_iff]
  constructor
  · rintro ⟨u, hu⟩
    refine ⟨u.reverse, ?_⟩
    have := congrArg List.reverse hu
    simpa using this
  · rintro ⟨a, rfl⟩
    exact ⟨a.reverse, by simp⟩

theorem endsL_append (t x : List Char) : endsL t (x ++ t) = true := by
  unfold endsL
  rw [List.reverse_append]
  exact lpre_self_append t.reverse x.reverse

theorem dotApoFix_ends (a : List Char) :
    dotApoFix (a ++ ['.', apoC]) = a ++ fixRep := by
  unfold dotApoFix
  have hrev : (a ++ ['.', apoC]).reverse = apoC :: '.' :: a.reverse := by simp
  rw [hrev]
  have hne : ¬ (apoC = ' ') := by decide
  simp [hne]

theorem restoreDotLoop_ends (t : List Char)
    (hd : ∀ c ∈ ddmTag, c ∉ t) :
    ∀ fuel a, ∃ a', restoreDotLoop fuel (a ++ t) = a' ++ t := by
  intro fuel
  induction fuel with
  | zero => exact fun a => ⟨a, rfl⟩
  | succ fuel ih =>
    intro a
    unfold restoreDotLoop
    split
    · rw [rall_append_disjoint _ (by decide) hd a]
      exact ih _
    · exact ⟨a, rfl⟩

/-- C9: whenever the text after the resolver stage and clean-up ends with
    a period directly followed by an apostrophe, the fix-up pass splits
    them, and (with no protected patterns and escaping disabled) the final
    output of moses_tokenize_line ends with the split form: a period, a
    space, an apostrophe, a space and the final newline — the period and
    the apostrophe as two separate tokens. -/
theorem c9_dot_apostrophe_fixup (T : CharTables) (lang : Lang) (aggr : Bool)
    (dict : List Char → Option PrefixType) (text : List Char)
    (h : endsL ['.', apoC] (afterResolver T lang aggr [] dict text).1 = true) :
    endsL (fixRep ++ ['\n'])
      (mosesTokenizeLine T lang true aggr [] dict text) = true := by
  rcases (endsL_iff _ _).1 h with ⟨a, ha⟩
  have hline : mosesTokenizeLine T lang true aggr [] dict text
      = ensureNL (restoreMultiDot (dotApoFix (afterResolver T lang aggr [] dict text).1)) := rfl
  rw [hline, ha, dotApoFix_ends]
  have hdisj1 : ∀ c ∈ ddmTag, c ∉ fixRep := by decide
  have hdisj2 : ∀ c ∈ dmTag, c ∉ fixRep := by decide
  unfold restoreMultiDot
  obtain ⟨a', ha'⟩ := restoreDotLoop_ends fixRep hdisj1 (countD (a ++ fixRep) + 1) a
  rw [ha', rall_append_disjoint _ (by decide) hdisj2 a']
  unfold ensureNL
  rw [if_neg]
  · rw [List.append_assoc]
    exact endsL_append _ _
  · rw [List.getLast?_append_of_ne_nil _ (by decide : fixRep ≠ [])]
    decide

/-! ## Generic scanner lemmas and the multi-dot round trip -/

theorem scanRwAux_skip (step : List Char → Option (List Char × Nat))
    (k : Nat) (s : List Char) :
    scanRwAux step k s = scanRwAux step 0 (s.drop k) := by
  induction k generalizing s with
  | zero => simp
  | succ k ih =>
    cases s with
    | nil => simp [scanRwAux]
    | cons c rest => simp [scanRwAux, ih, List.drop_succ_cons]

theorem scanRw_cons (step : List Char → Option (List Char × Nat))
    (c : Char) (rest : List Char) :
    scanRw step (c :: rest) =
      match step (c :: rest) with
      | some (e, n) => e ++ scanRw step (rest.drop n)
      | none => c :: scanRw step rest := by
  show scanRwAux step 0 (c :: rest) = _
  unfold scanRwAux
  cases h : step (c :: rest) with
  | none => rfl
  | some en =>
    cases en with
    | mk e n => simp [scanRwAux_skip, scanRw]

theorem scanRw_nil (step : List Char → Option (List Char × Nat)) :
    scanRw step [] = [] := rfl

theorem scanRw_cons_some (step : List Char → Option (List Char × Nat))
    {c : Char} {rest e : List Char} {n : Nat}
    (h : step (c :: rest) = some (e, n)) :
    scanRw step (c :: rest) = e ++ scanRw step (rest.drop n) := by
  rw [scanRw_cons, h]

theorem scanRw_cons_none (step : List Char → Option (List Char × Nat))
    {c : Char} {rest : List Char} (h : step (c :: rest) = none) :
    scanRw step (c :: rest) = c :: scanRw step rest := by
  rw [scanRw_cons, h]

theorem scanRw_peel (step : List Char → Option (List Char × Nat))
    (pred : Char → Prop)
    (hstep : ∀ c rest, pred c → step (c :: rest) = none) :
    ∀ u y, (∀ c ∈ u, pred c) → scanRw step (u ++ y) = u ++ scanRw step y := by
  intro u
  induction u with
  | nil => simp
  | cons c u' ih =>
    intro y hu
    rw [List.cons_append, scanRw_cons, hstep c _ (hu c (by simp))]
    rw [ih y (fun d hd => hu d (by simp [hd]))]
    rfl

theorem scanRw_id_noD (step : List Char → Option (List Char × Nat))
    (pred : Char → Prop)
    (hstep : ∀ c rest, pred c → step (c :: rest) = none)
    (s : List Char) (hs : ∀ c ∈ s, pred c) : scanRw step s = s := by
  have := scanRw_peel step pred hstep s [] hs
  simpa [scanRw, scanRwAux] using this

theorem scanRw_id_of_none (step : List Char → Option (List Char × Nat))
    (s : List Char) (h : ∀ u v, s = u ++ v → step v = none) :
    scanRw step s = s := by
  induction s with
  | nil => rfl
  | cons c rest ih =>
    rw [scanRw_cons, h [] (c :: rest) rfl]
    rw [ih (fun u v huv => h (c :: u) v (by simp [huv]))]

theorem dotRep_append_dot (j : Nat) :
    dotRep (j + 1) = dotRep j ++ ('D' :: 'O' :: 'T' :: []) := by
  induction j with
  | zero => rfl
  | succ j ih =>
    calc dotRep (j + 1 + 1) = 'D' :: 'O' :: 'T' :: dotRep (j + 1) := rfl
      _ = 'D' :: 'O' :: 'T' :: (dotRep j ++ ['D', 'O', 'T']) := by rw [ih]
      _ = ('D' :: 'O' :: 'T' :: dotRep j) ++ ['D', 'O', 'T'] := rfl
      _ = dotRep (j + 1) ++ ['D', 'O', 'T'] := rfl

theorem mem_dotRep {c : Char} {j : Nat} (h : c ∈ dotRep j) :
    c = 'D' ∨ c = 'O' ∨ c = 'T' := by
  induction j with
  | zero => simp [dotRep] at h
  | succ j ih =>
    simp only [dotRep, List.mem_cons] at h
    rcases h with rfl | rfl | rfl | h
    · exact Or.inl rfl
    · exact Or.inr (Or.inl rfl)
    · exact Or.inr (Or.inr rfl)
    · exact ih h

theorem wordsBy_sep (p : Char → Bool) {x : Char} (hx : p x = true)
    (rest : List Char) : wordsBy p (x :: rest) = wordsBy p rest := by
  simp [wordsBy, wordsByCore, hx]

theorem wordsByCore_word (p : Char → Bool) :
    ∀ w y, (∀ c ∈ w, p c = false) →
      wordsByCore p (w ++ y) = (w ++ (wordsByCore p y).1, (wordsByCore p y).2) := by
  intro w
  induction w with
  | nil => simp
  | cons c w' ih =>
    intro y hw
    have hc : p c = false := hw c (by simp)
    simp only [List.cons_append, wordsByCore, hc, Bool.false_eq_true, if_false,
      List.append_eq]
    rw [ih y (fun d hd => hw d (by simp [hd]))]

theorem wordsBy_word (p : Char → Bool) (w : List Char) (hne : w ≠ [])
    (hw : ∀ c ∈ w, p c = false) : wordsBy p w = [w] := by
  unfold wordsBy
  have h := wordsByCore_word p w [] hw
  simp only [List.append_nil] at h
  rw [h]
  simp [wordsByCore, hne]

theorem wordsBy_word_sep (p : Char → Bool) (w : List Char) (hne : w ≠ [])
    (hw : ∀ c ∈ w, p c = false) (x : Char) (rest : List Char)
    (hx : p x = true) :
    wordsBy p (w ++ x :: rest) = w :: wordsBy p rest := by
  unfold wordsBy
  rw [wordsByCore_word p w (x :: rest) hw]
  simp only [wordsByCore, hx, if_true]
  simp [hne, wordsBy]

theorem splitByClass_keep (keep : Char → Bool) (s : List Char)
    (h : ∀ c ∈ s, keep c = true) : splitByClass keep s = s := by
  induction s with
  | nil => rfl
  | cons c rest ih =>
    unfold splitByClass at ih ⊢
    simp only [List.map_cons, List.flatten_cons, h c (by simp)]
    rw [ih (fun d hd => h d (by simp [hd]))]
    rfl

theorem u8filter_id (s : List Char) (h : ∀ c ∈ s, 31 < c.toNat % 256) :
    u8filter s = s := by
  unfold u8filter
  rw [List.filter_eq_self]
  intro c hc
  simpa using h c hc

theorem trimNL_end (x : List Char) {c : Char} (hc : c ≠ '\n') :
    trimNL (x ++ [c]) = x ++ [c] := by
  unfold trimNL
  rw [List.reverse_append]
  simp [List.dropWhile_cons, hc]

theorem linf_mono_left {n s : List Char} (x : List Char) (h : linf n s = true) :
    linf n (x ++ s) = true := by
  rcases (linf_iff n s).1 h with ⟨u, v, rfl⟩
  rw [show x ++ (u ++ n ++ v) = (x ++ u) ++ n ++ v by simp]
  exact linf_of_decomp _ _

theorem linf_false_of_not_mem {n s : List Char} {d : Char} (hd : d ∈ n)
    (hs : d ∉ s) : linf n s = false := by
  by_contra h
  have := (linf_iff n s).1 (by simpa using h)
  rcases this with ⟨u, v, rfl⟩
  exact hs (by simp [hd])

theorem rall_no_linf {n r s : List Char} (h : linf n s = false) :
    rall n r s = s := by
  induction s with
  | nil => rfl
  | cons c rest ih =>
    unfold linf at h
    rw [Bool.or_eq_false_iff] at h
    rw [rall_cons, if_neg (fun hm => by simp [hm.2] at h), ih h.2]

theorem rall_peel_noHead {n r : List Char} {h : Char}
    (hh : n.head? = some h) :
    ∀ u y, (∀ c ∈ u, c ≠ h) → rall n r (u ++ y) = u ++ rall n r y := by
  intro u
  induction u with
  | nil => simp
  | cons c u' ih =>
    intro y hu
    rw [List.cons_append, rall_cons, if_neg, ih y (fun d hd => hu d (by simp [hd]))]
    · rfl
    rintro ⟨hne, hp⟩
    cases n with
    | nil => simp at hh
    | cons x n' =>
      simp only [List.head?_cons, Option.some.injEq] at hh
      simp only [lpre, Bool.and_eq_true, beq_iff_eq] at hp
      exact hu c (by simp) (hp.1 ▸ hh)

theorem takeWhile_dots (K : Nat) (c : Char) (y : List Char) (hc : c ≠ '.') :
    (List.replicate K '.' ++ c :: y).takeWhile (fun x => x == '.')
      = List.replicate K '.' := by
  induction K with
  | zero => simp [List.takeWhile_cons, hc]
  | succ K ih => simp [List.replicate_succ, List.takeWhile_cons, ih]

theorem mdtStep_none {c : Char} (hc : c ≠ '.') (rest : List Char) :
    mdtStep (c :: rest) = none := by
  cases rest with
  | nil => rfl
  | cons d rest2 => simp [mdtStep, hc]

theorem multiDotTag_schema (K : Nat) :
    multiDotTag (['a', ' '] ++ List.replicate (K + 2) '.' ++ [' ', 'b'])
      = ['a', ' ', ' '] ++ dotRep 1 ++ ("MULTI".toList)
          ++ List.replicate (K + 1) '.' ++ [' ', 'b'] := by
  unfold multiDotTag
  have hpeel := scanRw_peel mdtStep (fun c => c ≠ '.')
    (fun c rest hc => mdtStep_none hc rest) ['a', ' ']
    (List.replicate (K + 2) '.' ++ [' ', 'b']) (by decide)
  rw [show (['a', ' '] ++ List.replicate (K + 2) '.' ++ [' ', 'b'])
      = ['a', ' '] ++ (List.replicate (K + 2) '.' ++ [' ', 'b']) by simp, hpeel]
  rw [show List.replicate (K + 2) '.' = '.' :: '.' :: List.replicate K '.' by
    simp [List.replicate_succ]]
  have hstep : mdtStep ('.' :: ('.' :: List.replicate K '.' ++ [' ', 'b']))
      = some ((" DOTMULTI".toList) ++ ('.' :: List.replicate K '.'), 1 + K) := by
    show mdtStep ('.' :: '.' :: (List.replicate K '.' ++ [' ', 'b'])) = _
    rw [show List.replicate K '.' ++ [' ', 'b'] = List.replicate K '.' ++ ' ' :: ['b'] by simp]
    simp [mdtStep, takeWhile_dots K ' ' ['b'] (by decide), Nat.add_comm]
  rw [show ('.' :: '.' :: List.replicate K '.') ++ [' ', 'b']
      = '.' :: ('.' :: List.replicate K '.' ++ [' ', 'b']) by simp,
    scanRw_cons_some mdtStep hstep]
  have hdrop : (('.' :: List.replicate K '.' ++ [' ', 'b'])).drop (1 + K) = [' ', 'b'] := by
    rw [show ('.' :: List.replicate K '.' ++ [' ', 'b'])
        = ('.' :: List.replicate K '.') ++ [' ', 'b'] by simp]
    have hlen : ('.' :: List.replicate K '.').length = 1 + K := by
      simp [Nat.add_comm]
    rw [← hlen, List.drop_left]
  rw [hdrop]
  have hsp : scanRw mdtStep [' ', 'b'] = [' ', 'b'] := by decide
  rw [hsp]
  simp [List.replicate_succ, dotRep]

theorem lpre_dm_false_DOTD (z : List Char) :
    lpre dmDotPat ('D' :: 'O' :: 'T' :: 'D' :: z) = false := by
  have e : dmDotPat = 'D' :: 'O' :: 'T' :: 'M' :: ['U', 'L', 'T', 'I', '.'] := rfl
  rw [e]
  simp only [lpre]
  simp [show (('M' : Char) == 'D') = false from rfl]

theorem dm1Step_none_head {c : Char} (hc : c ≠ 'D') (rest : List Char) :
    dm1Step (c :: rest) = none := by
  unfold dm1Step
  rw [if_neg]
  intro h
  have e : dmDotPat = 'D' :: ['O', 'T', 'M', 'U', 'L', 'T', 'I', '.'] := rfl
  rw [e] at h
  simp only [lpre, Bool.and_eq_true, beq_iff_eq] at h
  exact hc h.1.symm

theorem rall_cons_noHead {n r : List Char} {h : Char} (hh : n.head? = some h)
    {c : Char} (hc : c ≠ h) (rest : List Char) :
    rall n r (c :: rest) = c :: rall n r rest := by
  rw [rall_cons, if_neg]
  rintro ⟨hne, hp⟩
  cases n with
  | nil => simp at hh
  | cons x n' =>
    simp only [List.head?_cons, Option.some.injEq] at hh
    simp only [lpre, Bool.and_eq_true, beq_iff_eq] at hp
    exact hc (by rw [← hp.1]; exact hh)

theorem rall_cons_match {n r : List Char} (hn : n ≠ []) {c : Char}
    {rest : List Char} (hp : lpre n (c :: rest) = true) :
    rall n r (c :: rest) = r ++ rall n r ((c :: rest).drop n.length) := by
  rw [rall_cons, if_pos ⟨hn, hp⟩]

theorem dm1Step_at_junction (d : Char) (z : List Char) :
    dm1Step ('D' :: 'O' :: 'T' :: 'M' :: 'U' :: 'L' :: 'T' :: 'I' :: '.' :: d :: z)
      = if d = '.' then none else some (("DOTDOTMULTI ".toList) ++ [d], 9) := by
  unfold dm1Step
  rw [if_pos]
  · rfl
  · have e : ('D' :: 'O' :: 'T' :: 'M' :: 'U' :: 'L' :: 'T' :: 'I' :: '.' :: d :: z)
        = dmDotPat ++ (d :: z) := rfl
    rw [e]
    exact lpre_self_append _ _

theorem step1_id_dmt (ds y : List Char) (hds : ds.head? = some '.')
    (hnoD : ∀ c ∈ ds, c ≠ 'D') (hnoDy : ∀ c ∈ y, c ≠ 'D') :
    ∀ j, scanRw dm1Step (dotRep (j + 1) ++ ("MULTI".toList) ++ '.' :: ds ++ y)
      = dotRep (j + 1) ++ ("MULTI".toList) ++ '.' :: ds ++ y := by
  intro j
  induction j with
  | zero =>
    cases ds with
    | nil => simp at hds
    | cons d0 ds' =>
      simp only [List.head?_cons, Option.some.injEq] at hds
      subst hds
      have hshape : dotRep 1 ++ ("MULTI".toList) ++ '.' :: ('.' :: ds') ++ y
          = 'D' :: 'O' :: 'T' :: 'M' :: 'U' :: 'L' :: 'T' :: 'I' :: '.' :: '.' :: (ds' ++ y) := rfl
      rw [hshape]
      have hstep : dm1Step ('D' :: 'O' :: 'T' :: 'M' :: 'U' :: 'L' :: 'T' :: 'I'
          :: '.' :: '.' :: (ds' ++ y)) = none := by
        rw [dm1Step_at_junction]
        simp
      rw [scanRw_cons_none _ hstep]
      have hrest : scanRw dm1Step ('O' :: 'T' :: 'M' :: 'U' :: 'L' :: 'T' :: 'I'
          :: '.' :: '.' :: (ds' ++ y)) = 'O' :: 'T' :: 'M' :: 'U' :: 'L' :: 'T' :: 'I'
          :: '.' :: '.' :: (ds' ++ y) := by
        refine scanRw_id_noD dm1Step (fun c => c ≠ 'D')
          (fun c rest hc => dm1Step_none_head hc rest) _ ?_
        intro c hcmem
        simp only [List.mem_cons] at hcmem
        rcases hcmem with rfl | rfl | rfl | rfl | rfl | rfl | rfl | rfl | rfl | hcm
        all_goals first
          | decide
          | (rcases List.mem_append.1 hcm with hm | hm
             · exact hnoD c (by simp [hm])
             · exact hnoDy c hm)
      rw [hrest]
  | succ j ih =>
    have hshape : dotRep (j + 1 + 1) ++ ("MULTI".toList) ++ '.' :: ds ++ y
        = 'D' :: 'O' :: 'T' :: (dotRep (j + 1) ++ ("MULTI".toList) ++ '.' :: ds ++ y) := rfl
    rw [hshape]
    have h1 : dm1Step ('D' :: 'O' :: 'T' :: (dotRep (j + 1) ++ ("MULTI".toList)
        ++ '.' :: ds ++ y)) = none := by
      unfold dm1Step
      rw [if_neg]
      intro hP
      have : dotRep (j + 1) ++ ("MULTI".toList) ++ '.' :: ds ++ y
          = 'D' :: ('O' :: 'T' :: dotRep j ++ ("MULTI".toList) ++ '.' :: ds ++ y) := rfl
      rw [this, lpre_dm_false_DOTD] at hP
      exact Bool.false_ne_true hP
    rw [scanRw_cons_none _ h1]
    rw [scanRw_cons_none _ (dm1Step_none_head (by decide) _)]
    rw [scanRw_cons_none _ (dm1Step_none_head (by decide) _)]
    rw [ih]

theorem step2_at_dmt (ds y : List Char) (hnoD : ∀ c ∈ ds, c ≠ 'D')
    (hnoDy : ∀ c ∈ y, c ≠ 'D') :
    ∀ j, rall dmDotPat ddmTag (dotRep (j + 1) ++ ("MULTI".toList) ++ '.' :: ds ++ y)
      = dotRep (j + 2) ++ ("MULTI".toList) ++ ds ++ y := by
  intro j
  induction j with
  | zero =>
    have hshape : dotRep 1 ++ ("MULTI".toList) ++ '.' :: ds ++ y
        = 'D' :: ('O' :: 'T' :: 'M' :: 'U' :: 'L' :: 'T' :: 'I' :: '.' :: (ds ++ y)) := by
      simp [dotRep]
    rw [hshape]
    have hp : lpre dmDotPat ('D' :: ('O' :: 'T' :: 'M' :: 'U' :: 'L' :: 'T' :: 'I'
        :: '.' :: (ds ++ y))) = true := by
      have e : ('D' :: ('O' :: 'T' :: 'M' :: 'U' :: 'L' :: 'T' :: 'I' :: '.' :: (ds ++ y)))
          = dmDotPat ++ (ds ++ y) := rfl
      rw [e]
      exact lpre_self_append _ _
    rw [rall_cons_match (by decide) hp]
    have hdrop : (('D' :: ('O' :: 'T' :: 'M' :: 'U' :: 'L' :: 'T' :: 'I' :: '.'
        :: (ds ++ y)))).drop dmDotPat.length = ds ++ y := rfl
    rw [hdrop]
    have hid : rall dmDotPat ddmTag (ds ++ y) = ds ++ y := by
      refine rall_no_head (h := 'D') rfl ?_
      intro hmem
      rcases List.mem_append.1 hmem with hm | hm
      · exact hnoD 'D' hm rfl
      · exact hnoDy 'D' hm rfl
    rw [hid]
    rfl
  | succ j ih =>
    have hshape : dotRep (j + 1 + 1) ++ ("MULTI".toList) ++ '.' :: ds ++ y
        = 'D' :: 'O' :: 'T' :: (dotRep (j + 1) ++ ("MULTI".toList) ++ '.' :: ds ++ y) := rfl
    rw [hshape]
    have h1 : rall dmDotPat ddmTag ('D' :: ('O' :: 'T' :: (dotRep (j + 1)
        ++ ("MULTI".toList) ++ '.' :: ds ++ y)))
        = 'D' :: rall dmDotPat ddmTag ('O' :: 'T' :: (dotRep (j + 1)
            ++ ("MULTI".toList) ++ '.' :: ds ++ y)) := by
      rw [rall_cons, if_neg]
      rintro ⟨hne, hp⟩
      have e : dotRep (j + 1) ++ ("MULTI".toList) ++ '.' :: ds ++ y
          = 'D' :: ('O' :: 'T' :: dotRep j ++ ("MULTI".toList) ++ '.' :: ds ++ y) := rfl
      rw [show ('D' :: ('O' :: 'T' :: (dotRep (j + 1) ++ ("MULTI".toList) ++ '.' :: ds ++ y)))
          = 'D' :: 'O' :: 'T' :: (dotRep (j + 1) ++ ("MULTI".toList) ++ '.' :: ds ++ y)
          from rfl, e, lpre_dm_false_DOTD] at hp
      exact Bool.false_ne_true hp
    rw [h1]
    rw [rall_cons_noHead (n := dmDotPat) rfl (by decide) _]
    rw [rall_cons_noHead (n := dmDotPat) rfl (by decide) _]
    rw [ih]
    rfl

theorem step1_match_dmt (j : Nat) :
    scanRw dm1Step (dotRep (j + 1) ++ ("MULTI".toList) ++ ['.', ' ', 'b'])
      = dotRep (j + 2) ++ ("MULTI".toList) ++ [' ', ' ', 'b'] := by
  induction j with
  | zero => decide
  | succ j ih =>
    have hshape : dotRep (j + 1 + 1) ++ ("MULTI".toList) ++ ['.', ' ', 'b']
        = 'D' :: 'O' :: 'T' :: (dotRep (j + 1) ++ ("MULTI".toList) ++ ['.', ' ', 'b']) := rfl
    rw [hshape]
    have h1 : dm1Step ('D' :: 'O' :: 'T' :: (dotRep (j + 1) ++ ("MULTI".toList)
        ++ ['.', ' ', 'b'])) = none := by
      unfold dm1Step
      rw [if_neg]
      intro hP
      have e : dotRep (j + 1) ++ ("MULTI".toList) ++ ['.', ' ', 'b']
          = 'D' :: ('O' :: 'T' :: dotRep j ++ ("MULTI".toList) ++ ['.', ' ', 'b']) := rfl
      rw [e, lpre_dm_false_DOTD] at hP
      exact Bool.false_ne_true hP
    rw [scanRw_cons_none _ h1]
    rw [scanRw_cons_none _ (dm1Step_none_head (by decide) _)]
    rw [scanRw_cons_none _ (dm1Step_none_head (by decide) _)]
    rw [ih]
    rfl

theorem dotmultiLoop_exit {s : List Char} (h : linf dmDotPat s = false) :
    ∀ fuel, dotmultiLoop fuel s = s := by
  intro fuel
  cases fuel with
  | zero => rfl
  | succ f =>
    unfold dotmultiLoop
    rw [h]
    simp

theorem linf_state_true (j : Nat) (y : List Char) :
    linf dmDotPat (dotRep (j + 1) ++ ("MULTI".toList) ++ '.' :: y) = true := by
  have e : dotRep (j + 1) ++ ("MULTI".toList) ++ '.' :: y
      = dotRep j ++ dmDotPat ++ y := by
    rw [dotRep_append_dot]
    have e2 : dmDotPat = ['D', 'O', 'T'] ++ ("MULTI".toList) ++ ['.'] := rfl
    rw [e2]
    simp
  rw [e]
  exact linf_of_decomp _ _

theorem no_dot_state (j : Nat) :
    linf dmDotPat (['a', ' ', ' '] ++ dotRep j ++ ("MULTI".toList)
      ++ [' ', ' ', 'b']) = false := by
  apply linf_false_of_not_mem (d := '.') (by decide)
  intro hmem
  rcases List.mem_append.1 hmem with h | h
  · rcases List.mem_append.1 h with h2 | h2
    · rcases List.mem_append.1 h2 with h3 | h3
      · exact absurd h3 (by decide)
      · rcases mem_dotRep h3 with h4 | h4 | h4 <;> exact absurd h4 (by decide)
    · exact absurd h2 (by decide)
  · exact absurd h (by decide)

theorem dotmultiLoop_schema : ∀ k j fuel, 1 ≤ j → k + 1 ≤ fuel →
    dotmultiLoop fuel (['a', ' ', ' '] ++ dotRep j ++ ("MULTI".toList)
        ++ List.replicate (k + 1) '.' ++ [' ', 'b'])
      = ['a', ' ', ' '] ++ dotRep (j + k + 1) ++ ("MULTI".toList) ++ [' ', ' ', 'b'] := by
  intro k
  induction k with
  | zero =>
    intro j fuel hj hf
    obtain ⟨j', rfl⟩ : ∃ j', j = j' + 1 := ⟨j - 1, by omega⟩
    obtain ⟨f, rfl⟩ : ∃ f, fuel = f + 1 := ⟨fuel - 1, by omega⟩
    have hsh : (['a', ' ', ' '] ++ dotRep (j' + 1) ++ ("MULTI".toList)
        ++ List.replicate 1 '.' ++ [' ', 'b'])
        = ['a', ' ', ' '] ++ (dotRep (j' + 1) ++ ("MULTI".toList) ++ '.' :: [' ', 'b']) := by
      simp
    unfold dotmultiLoop
    rw [hsh, if_pos (linf_mono_left _ (linf_state_true j' [' ', 'b']))]
    have hstep1 : dotmultiStep1 (['a', ' ', ' '] ++ (dotRep (j' + 1) ++ ("MULTI".toList)
        ++ '.' :: [' ', 'b'])) = ['a', ' ', ' '] ++ (dotRep (j' + 2) ++ ("MULTI".toList)
        ++ [' ', ' ', 'b']) := by
      unfold dotmultiStep1
      rw [scanRw_peel dm1Step (fun c => c ≠ 'D')
        (fun c rest hc => dm1Step_none_head hc rest) _ _ (by decide)]
      have e : dotRep (j' + 1) ++ ("MULTI".toList) ++ '.' :: [' ', 'b']
          = dotRep (j' + 1) ++ ("MULTI".toList) ++ ['.', ' ', 'b'] := rfl
      rw [e, step1_match_dmt j']
    rw [hstep1]
    have hstep2 : dotmultiStep2 (['a', ' ', ' '] ++ (dotRep (j' + 2) ++ ("MULTI".toList)
        ++ [' ', ' ', 'b'])) = ['a', ' ', ' '] ++ (dotRep (j' + 2) ++ ("MULTI".toList)
        ++ [' ', ' ', 'b']) := by
      unfold dotmultiStep2
      apply rall_no_linf
      have := no_dot_state (j' + 2)
      simpa using this
    rw [hstep2]
    have hexit := dotmultiLoop_exit (s := ['a', ' ', ' '] ++ (dotRep (j' + 2)
      ++ ("MULTI".toList) ++ [' ', ' ', 'b'])) (by simpa using no_dot_state (j' + 2)) f
    rw [hexit]
    simp
  | succ k ih =>
    intro j fuel hj hf
    obtain ⟨j', rfl⟩ : ∃ j', j = j' + 1 := ⟨j - 1, by omega⟩
    obtain ⟨f, rfl⟩ : ∃ f, fuel = f + 1 := ⟨fuel - 1, by omega⟩
    have hsh : (['a', ' ', ' '] ++ dotRep (j' + 1) ++ ("MULTI".toList)
        ++ List.replicate (k + 2) '.' ++ [' ', 'b'])
        = ['a', ' ', ' '] ++ (dotRep (j' + 1) ++ ("MULTI".toList)
            ++ '.' :: (List.replicate (k + 1) '.') ++ [' ', 'b']) := by
      rw [show List.replicate (k + 2) '.' = '.' :: List.replicate (k + 1) '.' from
        List.replicate_succ '.' (k + 1)]
      simp
    unfold dotmultiLoop
    rw [hsh, if_pos (linf_mono_left _ (by
      have e : dotRep (j' + 1) ++ ("MULTI".toList)
          ++ '.' :: (List.replicate (k + 1) '.') ++ [' ', 'b']
          = dotRep (j' + 1) ++ ("MULTI".toList)
            ++ '.' :: (List.replicate (k + 1) '.' ++ [' ', 'b']) := by simp
      rw [e]
      exact linf_state_true j' _))]
    have hds : (List.replicate (k + 1) '.').head? = some '.' := by
      rw [List.replicate_succ]
      rfl
    have hnoD : ∀ c ∈ List.replicate (k + 1) '.', c ≠ 'D' := by
      intro c hc
      rw [List.eq_of_mem_replicate hc]
      decide
    have hnoDy : ∀ c ∈ ([' ', 'b'] : List Char), c ≠ 'D' := by decide
    have hstep1 : dotmultiStep1 (['a', ' ', ' '] ++ (dotRep (j' + 1) ++ ("MULTI".toList)
        ++ '.' :: (List.replicate (k + 1) '.') ++ [' ', 'b']))
        = ['a', ' ', ' '] ++ (dotRep (j' + 1) ++ ("MULTI".toList)
            ++ '.' :: (List.replicate (k + 1) '.') ++ [' ', 'b']) := by
      unfold dotmultiStep1
      rw [scanRw_peel dm1Step (fun c => c ≠ 'D')
        (fun c rest hc => dm1Step_none_head hc rest) _ _ (by decide)]
      rw [step1_id_dmt _ _ hds hnoD hnoDy j']
    rw [hstep1]
    have hstep2 : dotmultiStep2 (['a', ' ', ' '] ++ (dotRep (j' + 1) ++ ("MULTI".toList)
        ++ '.' :: (List.replicate (k + 1) '.') ++ [' ', 'b']))
        = ['a', ' ', ' '] ++ (dotRep (j' + 2) ++ ("MULTI".toList)
            ++ List.replicate (k + 1) '.' ++ [' ', 'b']) := by
      unfold dotmultiStep2
      rw [rall_peel_noHead (n := dmDotPat) rfl _ _ (by decide)]
      rw [step2_at_dmt _ _ hnoD hnoDy j']
    rw [hstep2]
    have hrec := ih (j' + 2) f (by omega) (by omega)
    have e2 : ['a', ' ', ' '] ++ (dotRep (j' + 2) ++ ("MULTI".toList)
        ++ List.replicate (k + 1) '.' ++ [' ', 'b'])
        = ['a', ' ', ' '] ++ dotRep (j' + 2) ++ ("MULTI".toList)
            ++ List.replicate (k + 1) '.' ++ [' ', 'b'] := by simp
    rw [e2, hrec]
    have e3 : j' + 2 + k + 1 = j' + 1 + (k + 1) + 1 := by omega
    rw [e3]

theorem dotRep_add (a b : Nat) : dotRep (a + b) = dotRep a ++ dotRep b := by
  induction a with
  | zero => simp [dotRep]
  | succ a ih =>
    have e : a + 1 + b = (a + b) + 1 := by omega
    rw [e]
    show 'D' :: 'O' :: 'T' :: dotRep (a + b) = ('D' :: 'O' :: 'T' :: dotRep a) ++ dotRep b
    rw [ih]
    rfl

theorem countDot_dotRep (j : Nat) : (dotRep j).countP (fun c => c == '.') = 0 := by
  induction j with
  | zero => rfl
  | succ j ih =>
    have h1 : (('D' : Char) == '.') = false := rfl
    have h2 : (('O' : Char) == '.') = false := rfl
    have h3 : (('T' : Char) == '.') = false := rfl
    simp [dotRep, List.countP_cons, ih, h1, h2, h3]

theorem countDot_replicate (m : Nat) :
    (List.replicate m '.').countP (fun c => c == '.') = m := by
  induction m with
  | zero => rfl
  | succ m ih => simp [List.replicate_succ, List.countP_cons, ih]

theorem countD_dotRep (j : Nat) : (dotRep j).countP (fun c => c == 'D') = j := by
  induction j with
  | zero => rfl
  | succ j ih =>
    have h1 : (('D' : Char) == 'D') = true := rfl
    have h2 : (('O' : Char) == 'D') = false := rfl
    have h3 : (('T' : Char) == 'D') = false := rfl
    simp [dotRep, List.countP_cons, ih, h1, h2, h3]

theorem countD_replicate_dot (m : Nat) :
    (List.replicate m '.').countP (fun c => c == 'D') = 0 := by
  induction m with
  | zero => rfl
  | succ m ih =>
    have h1 : (('.' : Char) == 'D') = false := rfl
    simp [List.replicate_succ, List.countP_cons, ih, h1]

theorem countDot_t4 (K : Nat) :
    countDot (['a', ' ', ' '] ++ dotRep 1 ++ ("MULTI".toList)
      ++ List.replicate (K + 1) '.' ++ [' ', 'b']) = K + 1 := by
  unfold countDot
  have hA : (['a', ' ', ' '] : List Char).countP (fun c => c == '.') = 0 := by decide
  have hM : ("MULTI".toList).countP (fun c => c == '.') = 0 := by decide
  have hy : ([' ', 'b'] : List Char).countP (fun c => c == '.') = 0 := by decide
  simp [List.countP_append, countDot_dotRep, countDot_replicate, hA, hM, hy]

theorem countD_restore_state (j m : Nat) :
    countD (['a', ' '] ++ dotRep j ++ ("MULTI".toList)
      ++ List.replicate m '.' ++ [' ', 'b']) = j := by
  unfold countD
  have hA : (['a', ' '] : List Char).countP (fun c => c == 'D') = 0 := by decide
  have hM : ("MULTI".toList).countP (fun c => c == 'D') = 0 := by decide
  have hy : ([' ', 'b'] : List Char).countP (fun c => c == 'D') = 0 := by decide
  simp [List.countP_append, countD_dotRep, countD_replicate_dot, hA, hM, hy]

theorem mem_state5 {c : Char} (j : Nat)
    (h : c ∈ (['a', ' ', ' '] ++ dotRep j ++ ("MULTI".toList) ++ [' ', ' ', 'b'])) :
    c ∈ (['a', ' ', 'D', 'O', 'T', 'M', 'U', 'L', 'I', 'b'] : List Char) := by
  rcases List.mem_append.1 h with h1 | h1
  · rcases List.mem_append.1 h1 with h2 | h2
    · rcases List.mem_append.1 h2 with h3 | h3
      · rcases List.mem_cons.1 h3 with rfl | h4
        · decide
        rcases List.mem_cons.1 h4 with rfl | h5
        · decide
        rcases List.mem_cons.1 h5 with rfl | h6
        · decide
        · exact absurd h6 (List.not_mem_nil c)
      · rcases mem_dotRep h3 with rfl | rfl | rfl <;> decide
    · have : c ∈ (['M', 'U', 'L', 'T', 'I'] : List Char) := h2
      rcases List.mem_cons.1 this with rfl | h4
      · decide
      rcases List.mem_cons.1 h4 with rfl | h5
      · decide
      rcases List.mem_cons.1 h5 with rfl | h6
      · decide
      rcases List.mem_cons.1 h6 with rfl | h7
      · decide
      rcases List.mem_cons.1 h7 with rfl | h8
      · decide
      · exact absurd h8 (List.not_mem_nil c)
  · rcases List.mem_cons.1 h1 with rfl | h4
    · decide
    rcases List.mem_cons.1 h4 with rfl | h5
    · decide
    rcases List.mem_cons.1 h5 with rfl | h6
    · decide
    · exact absurd h6 (List.not_mem_nil c)

theorem commaPass1_id (T : CharTables) (s : List Char) (h : ',' ∉ s) :
    commaPass1 T s = s := by
  unfold commaPass1
  apply scanRw_id_of_none
  intro u v huv
  match v with
  | [] => rfl
  | [c] => rfl
  | c :: d :: rest =>
    have hd : (d == ',') = false := by
      rw [beq_eq_false_iff_ne]
      intro e
      subst e
      exact h (by rw [huv]; simp)
    simp [commaStep1, hd]

theorem commaPass2_id (T : CharTables) (s : List Char) (h : ',' ∉ s) :
    commaPass2 T s = s := by
  unfold commaPass2
  apply scanRw_id_of_none
  intro u v huv
  match v with
  | [] => rfl
  | [c] => rfl
  | c :: d :: rest =>
    have hc : (c == ',') = false := by
      rw [beq_eq_false_iff_ne]
      intro e
      subst e
      exact h (by rw [huv]; simp)
    simp [commaStep2, hc]

theorem commaPass3_plain (T : CharTables) (y : List Char) (c1 c0 : Char)
    (h : ¬ (c0 = ',' ∧ T.isN c1 = true)) :
    commaPass3 T (y ++ [c1, c0]) = y ++ [c1, c0] := by
  unfold commaPass3
  rw [show (y ++ [c1, c0]).reverse = c0 :: c1 :: y.reverse by simp]
  simp only [if_neg h]

theorem contraction_default (T : CharTables) (s : List Char) :
    contractionStage T Lang.De s = rall [apoC] ([' ', apoC, ' ']) s := rfl

theorem periodCapture_none_end (y : List Char) (c : Char) (hc : ¬ c = '.') :
    periodCapture (y ++ [c]) = none := by
  unfold periodCapture
  rw [show (y ++ [c]).reverse = c :: y.reverse by simp]
  cases hy : y.reverse with
  | nil => rfl
  | cons r1 rr => simp [hc]

theorem dotApoFix_plain (y : List Char) (c1 c0 : Char) (h0 : ¬ c0 = ' ')
    (h0' : ¬ c0 = apoC) : dotApoFix (y ++ [c1, c0]) = y ++ [c1, c0] := by
  unfold dotApoFix
  rw [show (y ++ [c1, c0]).reverse = c0 :: c1 :: y.reverse by simp]
  simp [h0, h0']

theorem wordsBy_t5 (j : Nat) :
    wordsBy rustWS (['a', ' ', ' '] ++ dotRep j ++ ("MULTI".toList) ++ [' ', ' ', 'b'])
      = [['a'], dotRep j ++ ("MULTI".toList), ['b']] := by
  have e : (['a', ' ', ' '] ++ dotRep j ++ ("MULTI".toList) ++ [' ', ' ', 'b'])
      = ['a'] ++ ' ' :: (' ' :: ((dotRep j ++ ("MULTI".toList)) ++ ' ' :: (' ' :: ['b']))) := by
    simp
  rw [e, wordsBy_word_sep rustWS ['a'] (by decide) (by decide) ' ' _ (by decide)]
  rw [wordsBy_sep rustWS (by decide)]
  have hne : dotRep j ++ ("MULTI".toList) ≠ [] := by
    intro hnil
    exact absurd (List.append_eq_nil.mp hnil).2 (by decide)
  have hw : ∀ c ∈ dotRep j ++ ("MULTI".toList), rustWS c = false := by
    intro c hc
    rcases List.mem_append.1 hc with h1 | h1
    · rcases mem_dotRep h1 with rfl | rfl | rfl <;> decide
    · have : c ∈ (['M', 'U', 'L', 'T', 'I'] : List Char) := h1
      rcases this with _ | ⟨_, _ | ⟨_, _ | ⟨_, _ | ⟨_, _ | ⟨_, h⟩⟩⟩⟩⟩ <;>
        first | decide | exact absurd h (List.not_mem_nil c)
  rw [wordsBy_word_sep rustWS (dotRep j ++ ("MULTI".toList)) hne hw ' ' _ (by decide)]
  rw [wordsBy_sep rustWS (by decide)]
  rw [wordsBy_word rustWS ['b'] (by decide) (by decide)]

theorem wordPass_t5 (j : Nat) :
    wordPass asciiT emptyDict [['a'], dotRep j ++ ("MULTI".toList), ['b']]
      = ['a', ' '] ++ (dotRep j ++ ("MULTI".toList)) ++ [' ', 'b', ' '] := by
  have h1 : periodCapture ['a'] = none := rfl
  have h3 : periodCapture ['b'] = none := rfl
  have h2 : periodCapture (dotRep j ++ ("MULTI".toList)) = none := by
    have e : dotRep j ++ ("MULTI".toList) = (dotRep j ++ ['M', 'U', 'L', 'T']) ++ ['I'] := by
      have e2 : ("MULTI".toList) = ['M', 'U', 'L', 'T'] ++ ['I'] := rfl
      rw [e2, List.append_assoc]
    rw [e]
    exact periodCapture_none_end _ _ (by decide)
  have h2b : periodCapture (dotRep j ++ (['M', 'U', 'L', 'T', 'I'] : List Char)) = none := h2
  simp [wordPass, processWord, h1, h2, h2b, h3]

theorem asciiCollapse_t6 (j : Nat) :
    asciiCollapse (['a', ' '] ++ (dotRep j ++ ("MULTI".toList)) ++ [' ', 'b', ' '])
      = ['a', ' '] ++ dotRep j ++ ("MULTI".toList) ++ [' ', 'b'] := by
  unfold asciiCollapse
  have e : (['a', ' '] ++ (dotRep j ++ ("MULTI".toList)) ++ [' ', 'b', ' '])
      = ['a'] ++ ' ' :: ((dotRep j ++ ("MULTI".toList)) ++ ' ' :: (['b'] ++ ' ' :: [])) := by
    simp
  rw [e, wordsBy_word_sep asciiWS ['a'] (by decide) (by decide) ' ' _ (by decide)]
  have hne : dotRep j ++ ("MULTI".toList) ≠ [] := by
    intro hnil
    exact absurd (List.append_eq_nil.mp hnil).2 (by decide)
  have hw : ∀ c ∈ dotRep j ++ ("MULTI".toList), asciiWS c = false := by
    intro c hc
    rcases List.mem_append.1 hc with h1 | h1
    · rcases mem_dotRep h1 with rfl | rfl | rfl <;> decide
    · have : c ∈ (['M', 'U', 'L', 'T', 'I'] : List Char) := h1
      rcases this with _ | ⟨_, _ | ⟨_, _ | ⟨_, _ | ⟨_, _ | ⟨_, h⟩⟩⟩⟩⟩ <;>
        first | decide | exact absurd h (List.not_mem_nil c)
  rw [wordsBy_word_sep asciiWS (dotRep j ++ ("MULTI".toList)) hne hw ' ' _ (by decide)]
  rw [wordsBy_word_sep asciiWS ['b'] (by decide) (by decide) ' ' _ (by decide)]
  show ['a'] ++ ' ' :: joinSp [dotRep j ++ ("MULTI".toList), ['b']] = _
  simp [joinSp]

theorem lpre_ddm_false_DDD (z : List Char) :
    lpre ddmTag ('D' :: 'O' :: 'T' :: 'D' :: 'O' :: 'T' :: 'D' :: z) = false := by
  have e : ddmTag = 'D' :: 'O' :: 'T' :: 'D' :: 'O' :: 'T' :: 'M' :: ['U', 'L', 'T', 'I'] := rfl
  rw [e]
  simp only [lpre]
  simp [show (('M' : Char) == 'D') = false from rfl]

theorem rall_ddm (z : List Char) (hz : ∀ c ∈ z, c ≠ 'D') :
    ∀ j, rall ddmTag (dmTag ++ ['.']) (dotRep (j + 2) ++ ("MULTI".toList) ++ z)
      = dotRep (j + 1) ++ ("MULTI".toList) ++ '.' :: z := by
  intro j
  induction j with
  | zero =>
    have e : dotRep 2 ++ ("MULTI".toList) ++ z
        = 'D' :: ('O' :: 'T' :: 'D' :: 'O' :: 'T' :: 'M' :: 'U' :: 'L' :: 'T' :: 'I' :: z) := rfl
    have hp : lpre ddmTag ('D' :: ('O' :: 'T' :: 'D' :: 'O' :: 'T' :: 'M' :: 'U' :: 'L' :: 'T' :: 'I' :: z)) = true := by
      have := lpre_self_append ddmTag z
      rw [show ddmTag ++ z = 'D' :: ('O' :: 'T' :: 'D' :: 'O' :: 'T' :: 'M' :: 'U' :: 'L' :: 'T' :: 'I' :: z) from rfl] at this
      exact this
    rw [e, rall_cons_match (by decide) hp]
    rw [show (('D' :: ('O' :: 'T' :: 'D' :: 'O' :: 'T' :: 'M' :: 'U' :: 'L' :: 'T' :: 'I' :: z)).drop ddmTag.length) = z from rfl]
    rw [rall_no_head (show ddmTag.head? = some 'D' from rfl) (fun hm => hz 'D' hm rfl)]
    simp [dmTag, dotRep]
  | succ j ih =>
    have e : dotRep (j + 3) ++ ("MULTI".toList) ++ z
        = 'D' :: ('O' :: 'T' :: (dotRep (j + 2) ++ ("MULTI".toList) ++ z)) := rfl
    have hfalse : lpre ddmTag ('D' :: ('O' :: 'T' :: (dotRep (j + 2) ++ ("MULTI".toList) ++ z))) = false := by
      rw [show ('D' :: ('O' :: 'T' :: (dotRep (j + 2) ++ ("MULTI".toList) ++ z)))
          = 'D' :: 'O' :: 'T' :: 'D' :: 'O' :: 'T' :: 'D' ::
            ('O' :: 'T' :: (dotRep j ++ ("MULTI".toList) ++ z)) from rfl]
      exact lpre_ddm_false_DDD _
    rw [e, rall_cons, if_neg (fun hm => by rw [hfalse] at hm; exact Bool.false_ne_true hm.2)]
    rw [rall_cons_noHead (show ddmTag.head? = some 'D' from rfl)
      (show ('O' : Char) ≠ 'D' by decide)]
    rw [rall_cons_noHead (show ddmTag.head? = some 'D' from rfl)
      (show ('T' : Char) ≠ 'D' by decide)]
    rw [ih]
    rfl

theorem restoreDotLoop_exit {s : List Char} (h : linf ddmTag s = false) :
    ∀ fuel, restoreDotLoop fuel s = s := by
  intro fuel
  cases fuel with
  | zero => rfl
  | succ f =>
    unfold restoreDotLoop
    rw [h]
    simp

theorem linf_countP_le {n s : List Char} (h : linf n s = true) (p : Char → Bool) :
    n.countP p ≤ s.countP p := by
  rcases (linf_iff n s).1 h with ⟨u, v, rfl⟩
  simp [List.countP_append]
  omega

theorem linf_ddm_false_of_count {s : List Char}
    (h : s.countP (fun c => c == 'D') ≤ 1) : linf ddmTag s = false := by
  cases hl : linf ddmTag s with
  | false => rfl
  | true =>
    have h2 := linf_countP_le hl (fun c => c == 'D')
    have h3 : ddmTag.countP (fun c => c == 'D') = 2 := by decide
    omega

theorem restoreDotLoop_schema : ∀ j m fuel, j + 1 ≤ fuel →
    restoreDotLoop fuel (['a', ' '] ++ dotRep (j + 1) ++ ("MULTI".toList)
        ++ List.replicate m '.' ++ [' ', 'b'])
      = ['a', ' '] ++ dotRep 1 ++ ("MULTI".toList)
          ++ List.replicate (j + m) '.' ++ [' ', 'b'] := by
  intro j
  induction j with
  | zero =>
    intro m fuel hf
    have hc : countD (['a', ' '] ++ dotRep 1 ++ ("MULTI".toList)
        ++ List.replicate m '.' ++ [' ', 'b']) = 1 := countD_restore_state 1 m
    have hl : linf ddmTag (['a', ' '] ++ dotRep 1 ++ ("MULTI".toList)
        ++ List.replicate m '.' ++ [' ', 'b']) = false := by
      apply linf_ddm_false_of_count
      unfold countD at hc
      omega
    rw [restoreDotLoop_exit hl fuel]
    simp
  | succ j ih =>
    intro m fuel hf
    obtain ⟨f, rfl⟩ : ∃ f, fuel = f + 1 := ⟨fuel - 1, by omega⟩
    have hdec : (['a', ' '] ++ dotRep (j + 2) ++ ("MULTI".toList)
        ++ List.replicate m '.' ++ [' ', 'b'])
        = (['a', ' '] ++ dotRep j) ++ ddmTag ++ (List.replicate m '.' ++ [' ', 'b']) := by
      rw [dotRep_add j 2]
      have e2 : ddmTag = dotRep 2 ++ ("MULTI".toList) := rfl
      rw [e2]
      simp
    have hl : linf ddmTag (['a', ' '] ++ dotRep (j + 2) ++ ("MULTI".toList)
        ++ List.replicate m '.' ++ [' ', 'b']) = true := by
      rw [hdec]
      exact linf_of_decomp _ _
    unfold restoreDotLoop
    rw [hl]
    simp only [if_true]
    have hz : ∀ c ∈ List.replicate m '.' ++ [' ', 'b'], c ≠ 'D' := by
      intro c hcm
      rcases List.mem_append.1 hcm with h1 | h1
      · rw [List.eq_of_mem_replicate h1]
        decide
      · rcases List.mem_cons.1 h1 with rfl | h4
        · decide
        rcases List.mem_cons.1 h4 with rfl | h5
        · decide
        · exact absurd h5 (List.not_mem_nil c)
    have hrall : rall ddmTag (dmTag ++ ['.'])
        (['a', ' '] ++ dotRep (j + 2) ++ ("MULTI".toList)
          ++ List.replicate m '.' ++ [' ', 'b'])
        = ['a', ' '] ++ dotRep (j + 1) ++ ("MULTI".toList)
            ++ List.replicate (m + 1) '.' ++ [' ', 'b'] := by
      rw [show (['a', ' '] ++ dotRep (j + 2) ++ ("MULTI".toList)
          ++ List.replicate m '.' ++ [' ', 'b'])
          = ['a', ' '] ++ (dotRep (j + 2) ++ ("MULTI".toList)
              ++ (List.replicate m '.' ++ [' ', 'b'])) by simp]
      rw [rall_peel_noHead (show ddmTag.head? = some 'D' from rfl) ['a', ' '] _ (by decide)]
      rw [rall_ddm (List.replicate m '.' ++ [' ', 'b']) hz j]
      simp [List.replicate_succ]
    rw [hrall, ih (m + 1) f (by omega)]
    have e3 : j + (m + 1) = j + 1 + m := by omega
    rw [e3]

theorem rall_dmTag_final (m : Nat) :
    rall dmTag (['.']) (['a', ' '] ++ dotRep 1 ++ ("MULTI".toList)
        ++ List.replicate m '.' ++ [' ', 'b'])
      = ['a', ' '] ++ List.replicate (m + 1) '.' ++ [' ', 'b'] := by
  rw [show (['a', ' '] ++ dotRep 1 ++ ("MULTI".toList)
      ++ List.replicate m '.' ++ [' ', 'b'])
      = ['a', ' '] ++ (dotRep 1 ++ ("MULTI".toList)
          ++ List.replicate m '.' ++ [' ', 'b']) by simp]
  rw [rall_peel_noHead (show dmTag.head? = some 'D' from rfl) ['a', ' '] _ (by decide)]
  have e2 : dotRep 1 ++ ("MULTI".toList) ++ List.replicate m '.' ++ [' ', 'b']
      = 'D' :: ('O' :: 'T' :: 'M' :: 'U' :: 'L' :: 'T' :: 'I'
          :: (List.replicate m '.' ++ [' ', 'b'])) := rfl
  have hp : lpre dmTag ('D' :: ('O' :: 'T' :: 'M' :: 'U' :: 'L' :: 'T' :: 'I'
      :: (List.replicate m '.' ++ [' ', 'b']))) = true := by
    have := lpre_self_append dmTag (List.replicate m '.' ++ [' ', 'b'])
    rw [show dmTag ++ (List.replicate m '.' ++ [' ', 'b'])
        = 'D' :: ('O' :: 'T' :: 'M' :: 'U' :: 'L' :: 'T' :: 'I'
            :: (List.replicate m '.' ++ [' ', 'b'])) from rfl] at this
    exact this
  rw [e2, rall_cons_match (by decide) hp]
  rw [show (('D' :: ('O' :: 'T' :: 'M' :: 'U' :: 'L' :: 'T' :: 'I'
      :: (List.replicate m '.' ++ [' ', 'b']))).drop dmTag.length)
      = List.replicate m '.' ++ [' ', 'b'] from rfl]
  have hnz : 'D' ∉ List.replicate m '.' ++ [' ', 'b'] := by
    intro hm
    rcases List.mem_append.1 hm with h1 | h1
    · have := List.eq_of_mem_replicate h1
      exact absurd this (by decide)
    · exact absurd h1 (by decide)
  rw [rall_no_head (show dmTag.head? = some 'D' from rfl) hnz]
  simp [List.replicate_succ]

theorem restoreMultiDot_schema (K : Nat) :
    restoreMultiDot (['a', ' '] ++ dotRep (K + 2) ++ ("MULTI".toList) ++ [' ', 'b'])
      = ['a', ' '] ++ List.replicate (K + 2) '.' ++ [' ', 'b'] := by
  unfold restoreMultiDot
  have hc : countD (['a', ' '] ++ dotRep (K + 2) ++ ("MULTI".toList) ++ [' ', 'b'])
      = K + 2 := by
    have := countD_restore_state (K + 2) 0
    simpa using this
  rw [hc]
  have e : (['a', ' '] ++ dotRep (K + 2) ++ ("MULTI".toList) ++ [' ', 'b'])
      = (['a', ' '] ++ dotRep (K + 1 + 1) ++ ("MULTI".toList)
          ++ List.replicate 0 '.' ++ [' ', 'b']) := by
    simp
  rw [e, restoreDotLoop_schema (K + 1) 0 (K + 2 + 1) (by omega)]
  rw [rall_dmTag_final (K + 1 + 0)]

theorem wordsBy_c5_plain (N : Nat) (hN : N ≠ 0) :
    wordsBy rustWS (['a', ' '] ++ List.replicate N '.' ++ [' ', 'b'])
      = [['a'], List.replicate N '.', ['b']] := by
  have e : (['a', ' '] ++ List.replicate N '.' ++ [' ', 'b'])
      = ['a'] ++ ' ' :: (List.replicate N '.' ++ ' ' :: ['b']) := by simp
  rw [e, wordsBy_word_sep rustWS ['a'] (by decide) (by decide) ' ' _ (by decide)]
  have hne : List.replicate N '.' ≠ [] := by
    intro h
    have := congrArg List.length h
    simp at this
    exact hN this
  have hw : ∀ c ∈ List.replicate N '.', rustWS c = false := by
    intro c hc
    rw [List.eq_of_mem_replicate hc]
    decide
  rw [wordsBy_word_sep rustWS (List.replicate N '.') hne hw ' ' _ (by decide)]
  rw [wordsBy_word rustWS ['b'] (by decide) (by decide)]

theorem wordsBy_c5_sp (N : Nat) (hN : N ≠ 0) :
    wordsBy rustWS ([' ', 'a', ' '] ++ List.replicate N '.' ++ [' ', 'b', ' '])
      = [['a'], List.replicate N '.', ['b']] := by
  have e : ([' ', 'a', ' '] ++ List.replicate N '.' ++ [' ', 'b', ' '])
      = ' ' :: (['a'] ++ ' ' :: (List.replicate N '.' ++ ' ' :: (['b'] ++ ' ' :: []))) := by
    simp
  rw [e, wordsBy_sep rustWS (by decide)]
  rw [wordsBy_word_sep rustWS ['a'] (by decide) (by decide) ' ' _ (by decide)]
  have hne : List.replicate N '.' ≠ [] := by
    intro h
    have := congrArg List.length h
    simp at this
    exact hN this
  have hw : ∀ c ∈ List.replicate N '.', rustWS c = false := by
    intro c hc
    rw [List.eq_of_mem_replicate hc]
    decide
  rw [wordsBy_word_sep rustWS (List.replicate N '.') hne hw ' ' _ (by decide)]
  rw [wordsBy_word_sep rustWS ['b'] (by decide) (by decide) ' ' _ (by decide)]
  rfl

theorem normalizer_c5 (N : Nat) (hN : N ≠ 0) :
    normalizer (['a', ' '] ++ List.replicate N '.' ++ [' ', 'b'])
      = [' ', 'a', ' '] ++ List.replicate N '.' ++ [' ', 'b', ' '] := by
  unfold normalizer
  rw [show (['a', ' '] ++ List.replicate N '.' ++ [' ', 'b'])
      = (['a', ' '] ++ List.replicate N '.' ++ [' ']) ++ ['b'] by simp]
  rw [trimNL_end _ (by decide)]
  rw [show ((['a', ' '] ++ List.replicate N '.' ++ [' ']) ++ ['b'])
      = ['a', ' '] ++ List.replicate N '.' ++ [' ', 'b'] by simp]
  unfold wsCollapse
  rw [wordsBy_c5_plain N hN]
  rw [show joinSp [['a'], List.replicate N '.', ['b']]
      = ['a'] ++ ' ' :: (List.replicate N '.' ++ ' ' :: ['b']) by simp [joinSp]]
  unfold padEnds
  have hmem : ∀ c ∈ (' ' :: ((['a'] ++ ' ' :: (List.replicate N '.' ++ ' ' :: ['b'])) ++ [' '])),
      31 < c.toNat % 256 := by
    intro c hc
    rcases List.mem_cons.1 hc with rfl | h1
    · decide
    rcases List.mem_append.1 h1 with h2 | h2
    · rcases List.mem_append.1 h2 with h3 | h3
      · rcases List.mem_cons.1 h3 with rfl | h4
        · decide
        · exact absurd h4 (List.not_mem_nil c)
      · rcases List.mem_cons.1 h3 with rfl | h4
        · decide
        rcases List.mem_append.1 h4 with h5 | h5
        · rw [List.eq_of_mem_replicate h5]
          decide
        rcases List.mem_cons.1 h5 with rfl | h6
        · decide
        rcases List.mem_cons.1 h6 with rfl | h7
        · decide
        · exact absurd h7 (List.not_mem_nil c)
    · rcases List.mem_cons.1 h2 with rfl | h3
      · decide
      · exact absurd h3 (List.not_mem_nil c)
  rw [u8filter_id _ hmem]
  simp

theorem wsCollapse_c5_sp (N : Nat) (hN : N ≠ 0) :
    wsCollapse ([' ', 'a', ' '] ++ List.replicate N '.' ++ [' ', 'b', ' '])
      = ['a', ' '] ++ List.replicate N '.' ++ [' ', 'b'] := by
  unfold wsCollapse
  rw [wordsBy_c5_sp N hN]
  simp [joinSp]

theorem charClass_c5 (N : Nat) :
    charClassStage asciiT Lang.De (['a', ' '] ++ List.replicate N '.' ++ [' ', 'b'])
      = ['a', ' '] ++ List.replicate N '.' ++ [' ', 'b'] := by
  show splitByClass (keepDefault asciiT) (['a', ' '] ++ List.replicate N '.' ++ [' ', 'b'])
      = ['a', ' '] ++ List.replicate N '.' ++ [' ', 'b']
  apply splitByClass_keep
  intro c hc
  rcases List.mem_append.1 hc with h1 | h1
  · rcases List.mem_append.1 h1 with h2 | h2
    · rcases List.mem_cons.1 h2 with rfl | h3
      · decide
      rcases List.mem_cons.1 h3 with rfl | h4
      · decide
      · exact absurd h4 (List.not_mem_nil c)
    · rw [List.eq_of_mem_replicate h2]
      decide
  · rcases List.mem_cons.1 h1 with rfl | h3
    · decide
    rcases List.mem_cons.1 h3 with rfl | h4
    · decide
    · exact absurd h4 (List.not_mem_nil c)

theorem afterResolver_c5 (K : Nat) :
    afterResolver asciiT Lang.De false [] emptyDict
      (['a', ' '] ++ List.replicate (K + 2) '.' ++ [' ', 'b'])
      = (['a', ' '] ++ dotRep (K + 2) ++ ("MULTI".toList) ++ [' ', 'b'],
          ([] : List (List Char × List Char))) := by
  simp only [afterResolver]
  rw [normalizer_c5 (K + 2) (by omega)]
  have hp1 : (protectLoop (['a', ' '] ++ List.replicate (K + 2) '.' ++ [' ', 'b']) [] 0
      ([' ', 'a', ' '] ++ List.replicate (K + 2) '.' ++ [' ', 'b', ' '])).1
      = [' ', 'a', ' '] ++ List.replicate (K + 2) '.' ++ [' ', 'b', ' '] := rfl
  have hp2 : (protectLoop (['a', ' '] ++ List.replicate (K + 2) '.' ++ [' ', 'b']) [] 0
      ([' ', 'a', ' '] ++ List.replicate (K + 2) '.' ++ [' ', 'b', ' '])).2
      = ([] : List (List Char × List Char)) := rfl
  rw [hp1, hp2]
  rw [wsCollapse_c5_sp (K + 2) (by omega)]
  rw [charClass_c5 (K + 2)]
  rw [if_neg (show ¬ (false = true) by decide)]
  rw [multiDotTag_schema K]
  rw [countDot_t4 K]
  rw [dotmultiLoop_schema K 1 (K + 1 + 1) (by omega) (by omega)]
  rw [show 1 + K + 1 = K + 2 by omega]
  have hnc : ',' ∉ (['a', ' ', ' '] ++ dotRep (K + 2) ++ ("MULTI".toList) ++ [' ', ' ', 'b']) := by
    intro hm
    exact absurd (mem_state5 (K + 2) hm) (by decide)
  rw [commaPass1_id asciiT _ hnc, commaPass2_id asciiT _ hnc]
  rw [show (['a', ' ', ' '] ++ dotRep (K + 2) ++ ("MULTI".toList) ++ [' ', ' ', 'b'])
      = (['a', ' ', ' '] ++ dotRep (K + 2) ++ ("MULTI".toList) ++ [' ']) ++ [' ', 'b'] by simp]
  rw [commaPass3_plain asciiT _ ' ' 'b' (by decide)]
  rw [show ((['a', ' ', ' '] ++ dotRep (K + 2) ++ ("MULTI".toList) ++ [' ']) ++ [' ', 'b'])
      = ['a', ' ', ' '] ++ dotRep (K + 2) ++ ("MULTI".toList) ++ [' ', ' ', 'b'] by simp]
  rw [contraction_default asciiT]
  rw [rall_no_linf (linf_false_of_not_mem (show apoC ∈ [apoC] by decide)
    (fun hm => absurd (mem_state5 (K + 2) hm) (by decide)))]
  unfold wordStage
  rw [wordsBy_t5 (K + 2), wordPass_t5 (K + 2)]
  rw [asciiCollapse_t6 (K + 2)]

theorem preEscape_c5 (K : Nat) :
    preEscape asciiT Lang.De false [] emptyDict
      (['a', ' '] ++ List.replicate (K + 2) '.' ++ [' ', 'b'])
      = ['a', ' '] ++ List.replicate (K + 2) '.' ++ [' ', 'b'] := by
  simp only [preEscape]
  rw [afterResolver_c5 K]
  have hr : ∀ s : List Char, restoreProt ([] : List (List Char × List Char)) s = s :=
    fun s => rfl
  show restoreMultiDot (restoreProt []
    (dotApoFix (['a', ' '] ++ dotRep (K + 2) ++ ("MULTI".toList) ++ [' ', 'b'])))
      = ['a', ' '] ++ List.replicate (K + 2) '.' ++ [' ', 'b']
  rw [hr]
  rw [show (['a', ' '] ++ dotRep (K + 2) ++ ("MULTI".toList) ++ [' ', 'b'])
      = (['a', ' '] ++ dotRep (K + 2) ++ ("MULTI".toList)) ++ [' ', 'b'] by simp]
  rw [dotApoFix_plain _ ' ' 'b' (by decide) (by decide)]
  rw [show ((['a', ' '] ++ dotRep (K + 2) ++ ("MULTI".toList)) ++ [' ', 'b'])
      = ['a', ' '] ++ dotRep (K + 2) ++ ("MULTI".toList) ++ [' ', 'b'] by simp]
  rw [restoreMultiDot_schema K]

/-- C5: the multi-dot round trip.  For a maximal run of N periods
    (2 ≤ N ≤ 50) embedded in otherwise-plain text, the forward multi-dot
    tagging pass (which rewrites the run into a DOT...DOT MULTI tag) and
    the end-of-pipeline restoration reproduce exactly N periods in the
    corresponding output position of moses_tokenize_line. -/
theorem c5_multidot_round_trip (N : Nat) (h2 : 2 ≤ N) (h50 : N ≤ 50) :
    mosesTokenizeLine asciiT Lang.De true false [] emptyDict
      (['a', ' '] ++ List.replicate N '.' ++ [' ', 'b'])
      = ['a', ' '] ++ List.replicate N '.' ++ [' ', 'b', '\n'] := by
  obtain ⟨K, rfl⟩ : ∃ K, N = K + 2 := ⟨N - 2, by omega⟩
  simp only [mosesTokenizeLine]
  rw [preEscape_c5 K]
  show ensureNL (['a', ' '] ++ List.replicate (K + 2) '.' ++ [' ', 'b'])
      = ['a', ' '] ++ List.replicate (K + 2) '.' ++ [' ', 'b', '\n']
  unfold ensureNL
  rw [show (['a', ' '] ++ List.replicate (K + 2) '.' ++ [' ', 'b'])
      = (['a', ' '] ++ List.replicate (K + 2) '.' ++ [' ']) ++ ['b'] by simp]
  rw [List.getLast?_concat]
  rw [if_neg (by decide)]
  simp

theorem c5_multidot_round_trip_witness :
    2 ≤ 3 ∧ 3 ≤ 50 ∧
      mosesTokenizeLine asciiT Lang.De true false [] emptyDict
        (['a', ' '] ++ List.replicate 3 '.' ++ [' ', 'b'])
        = ['a', ' '] ++ List.replicate 3 '.' ++ [' ', 'b', '\n'] :=
  ⟨by decide, by decide, c5_multidot_round_trip 3 (by decide) (by decide)⟩

theorem c9_dot_apostrophe_fixup_witness :
    endsL ['.', apoC] (afterResolver asciiT Lang.En false [] emptyDict
        ("he said x".toList ++ ['.', apoC])).1 = true ∧
      endsL (fixRep ++ ['\n'])
        (mosesTokenizeLine asciiT Lang.En true false [] emptyDict
          ("he said x".toList ++ ['.', apoC])) = true :=
  ⟨by decide, c9_dot_apostrophe_fixup asciiT Lang.En false emptyDict
      ("he said x".toList ++ ['.', apoC]) (by decide)⟩

theorem lpre_mem {n s : List Char} (h : lpre n s = true) {c : Char} (hc : c ∈ n) :
    c ∈ s := by
  rcases (lpre_iff n s).1 h with ⟨w, rfl⟩
  simp [hc]

theorem protRepAux_skip (p : List Char) (k : Nat) :
    ∀ m s, protRepAux p k m s = protRepAux p k 0 (s.drop m) := by
  intro m
  induction m with
  | zero => simp
  | succ m ih =>
    intro s
    cases s with
    | nil => simp [protRepAux]
    | cons c rest =>
      show protRepAux p k (m + 1) (c :: rest) = _
      rw [show protRepAux p k (m + 1) (c :: rest) = protRepAux p k m rest from rfl]
      rw [ih rest, List.drop_succ_cons]

theorem protRepAux_cons_nomatch (p : List Char) (k : Nat) {c : Char} {rest : List Char}
    (h : lpre p (c :: rest) = false) :
    protRepAux p k 0 (c :: rest)
      = (c :: (protRepAux p k 0 rest).1, (protRepAux p k 0 rest).2) := by
  show (if p ≠ [] ∧ lpre p (c :: rest) = true then
      (phName k ++ (protRepAux p (k + 1) (p.length - 1) rest).1,
        (protRepAux p (k + 1) (p.length - 1) rest).2.1,
        (phName k, p) :: (protRepAux p (k + 1) (p.length - 1) rest).2.2)
    else (c :: (protRepAux p k 0 rest).1,
      (protRepAux p k 0 rest).2.1, (protRepAux p k 0 rest).2.2)) = _
  rw [if_neg (fun hm => by rw [h] at hm; exact Bool.false_ne_true hm.2)]

theorem protRepAux_hit (p : List Char) (hp : p ≠ []) (k : Nat) (t : List Char) :
    protRepAux p k 0 (p ++ t)
      = (phName k ++ (protRepAux p (k + 1) 0 t).1,
          (protRepAux p (k + 1) 0 t).2.1,
          (phName k, p) :: (protRepAux p (k + 1) 0 t).2.2) := by
  obtain ⟨c0, p', rfl⟩ : ∃ c0 p', p = c0 :: p' := by
    cases p with
    | nil => exact absurd rfl hp
    | cons a b => exact ⟨a, b, rfl⟩
  show protRepAux (c0 :: p') k 0 (c0 :: (p' ++ t)) = _
  rw [show protRepAux (c0 :: p') k 0 (c0 :: (p' ++ t))
      = (if (c0 :: p') ≠ [] ∧ lpre (c0 :: p') (c0 :: (p' ++ t)) = true then
          (phName k ++ (protRepAux (c0 :: p') (k + 1) ((c0 :: p').length - 1) (p' ++ t)).1,
            (protRepAux (c0 :: p') (k + 1) ((c0 :: p').length - 1) (p' ++ t)).2.1,
            (phName k, c0 :: p')
              :: (protRepAux (c0 :: p') (k + 1) ((c0 :: p').length - 1) (p' ++ t)).2.2)
        else (c0 :: (protRepAux (c0 :: p') k 0 (p' ++ t)).1,
          (protRepAux (c0 :: p') k 0 (p' ++ t)).2.1,
          (protRepAux (c0 :: p') k 0 (p' ++ t)).2.2)) from rfl]
  rw [if_pos ⟨by simp, lpre_self_append (c0 :: p') t⟩]
  rw [show (c0 :: p').length - 1 = p'.length from rfl]
  rw [protRepAux_skip (c0 :: p') (k + 1) p'.length (p' ++ t)]
  rw [List.drop_left]

theorem protRepAux_no_mem (p : List Char) {d : Char} (hd : d ∈ p) :
    ∀ t, d ∉ t → ∀ k, protRepAux p k 0 t = (t, k, []) := by
  intro t
  induction t with
  | nil => intro _ k; rfl
  | cons c rest ih =>
    intro hdt k
    have hl : lpre p (c :: rest) = false := by
      cases hlp : lpre p (c :: rest) with
      | false => rfl
      | true => exact absurd (lpre_mem hlp hd) hdt
    rw [protRepAux_cons_nomatch p k hl,
      ih (fun hm => hdt (List.mem_cons_of_mem _ hm)) k]

theorem protRep_c2 (c0 c1 : Char) (rest : List Char)
    (h0 : c0 ≠ ' ') (h1 : c1 ≠ ' ') :
    protRep (c0 :: c1 :: rest) 0 ("x ".toList ++ (c0 :: c1 :: rest) ++ " y".toList)
      = ("x ".toList ++ phName 0 ++ " y".toList, 1, [(phName 0, c0 :: c1 :: rest)]) := by
  unfold protRep
  rw [show ("x ".toList ++ (c0 :: c1 :: rest) ++ " y".toList)
      = 'x' :: (' ' :: ((c0 :: c1 :: rest) ++ " y".toList)) by simp]
  have hb1 : (c1 == ' ') = false := by
    rw [beq_eq_false_iff_ne]
    exact h1
  have hb0 : (c0 == ' ') = false := by
    rw [beq_eq_false_iff_ne]
    exact h0
  have hp0 : lpre (c0 :: c1 :: rest)
      ('x' :: (' ' :: ((c0 :: c1 :: rest) ++ " y".toList))) = false := by
    simp [lpre, hb1]
  rw [protRepAux_cons_nomatch _ 0 hp0]
  have hp1 : lpre (c0 :: c1 :: rest)
      (' ' :: ((c0 :: c1 :: rest) ++ " y".toList)) = false := by
    simp [lpre, hb0]
  rw [protRepAux_cons_nomatch _ 0 hp1]
  rw [protRepAux_hit (c0 :: c1 :: rest) (by simp) 0 (" y".toList)]
  have hry : lpre (c0 :: c1 :: rest) (' ' :: ['y']) = false := by
    simp [lpre, hb0]
  have hryy : lpre (c0 :: c1 :: rest) (['y'] : List Char) = false := by
    simp [lpre]
  rw [show (" y".toList : List Char) = ' ' :: ['y'] from rfl]
  rw [protRepAux_cons_nomatch _ 1 hry]
  rw [protRepAux_cons_nomatch _ 1 hryy]
  rw [show protRepAux (c0 :: c1 :: rest) 1 0 ([] : List Char) = ([], 1, []) from rfl]
  simp [phName]

theorem protectLoop_c2 (c0 c1 : Char) (rest : List Char)
    (h0 : c0 ≠ ' ') (h1 : c1 ≠ ' ') (tok : List Char) :
    protectLoop ("x ".toList ++ (c0 :: c1 :: rest) ++ " y".toList)
        [c0 :: c1 :: rest] 0 tok
      = ("x ".toList ++ phName 0 ++ " y".toList, [(phName 0, c0 :: c1 :: rest)]) := by
  simp only [protectLoop]
  rw [protRep_c2 c0 c1 rest h0 h1]
  rfl

set_option maxHeartbeats 2000000 in
theorem afterResolver_c2 (c0 c1 : Char) (rest : List Char)
    (h0 : c0 ≠ ' ') (h1 : c1 ≠ ' ') :
    afterResolver asciiT Lang.De false [c0 :: c1 :: rest] emptyDict
      ("x ".toList ++ (c0 :: c1 :: rest) ++ " y".toList)
      = ("x ".toList ++ phName 0 ++ " y".toList, [(phName 0, c0 :: c1 :: rest)]) := by
  simp only [afterResolver]
  rw [protectLoop_c2 c0 c1 rest h0 h1]
  rw [show (("x ".toList ++ phName 0 ++ " y".toList,
      [(phName 0, c0 :: c1 :: rest)]) : List Char × List (List Char × List Char)).1
      = "x THISISPROTECTED000 y".toList from rfl]
  refine Prod.ext ?_ rfl
  show asciiCollapse (wordStage asciiT emptyDict (contractionStage asciiT Lang.De
      (commaPass3 asciiT (commaPass2 asciiT (commaPass1 asciiT
        (dotmultiLoop (countDot (multiDotTag (if false = true then
              aggrHyphen asciiT (charClassStage asciiT Lang.De
                (wsCollapse ("x THISISPROTECTED000 y".toList)))
            else charClassStage asciiT Lang.De
              (wsCollapse ("x THISISPROTECTED000 y".toList)))) + 1)
          (multiDotTag (if false = true then
              aggrHyphen asciiT (charClassStage asciiT Lang.De
                (wsCollapse ("x THISISPROTECTED000 y".toList)))
            else charClassStage asciiT Lang.De
              (wsCollapse ("x THISISPROTECTED000 y".toList))))))))))
      = "x ".toList ++ phName 0 ++ " y".toList
  decide

theorem preEscape_c2 (c0 c1 : Char) (rest : List Char)
    (h0 : c0 ≠ ' ') (h1 : c1 ≠ ' ') (hD : 'D' ∉ (c0 :: c1 :: rest)) :
    preEscape asciiT Lang.De false [c0 :: c1 :: rest] emptyDict
      ("x ".toList ++ (c0 :: c1 :: rest) ++ " y".toList)
      = "x ".toList ++ (c0 :: c1 :: rest) ++ " y".toList := by
  simp only [preEscape]
  rw [afterResolver_c2 c0 c1 rest h0 h1]
  show restoreMultiDot (rall (phName 0) (c0 :: c1 :: rest)
      ("x ".toList ++ phName 0 ++ " y".toList))
      = "x ".toList ++ (c0 :: c1 :: rest) ++ " y".toList
  rw [show ("x ".toList ++ phName 0 ++ " y".toList)
      = 'x' :: (' ' :: (phName 0 ++ " y".toList)) by simp]
  rw [rall_cons_noHead (show (phName 0).head? = some 'T' from rfl)
    (show ('x' : Char) ≠ 'T' by decide)]
  rw [rall_cons_noHead (show (phName 0).head? = some 'T' from rfl)
    (show (' ' : Char) ≠ 'T' by decide)]
  rw [show phName 0 ++ " y".toList = 'T' :: ("HISISPROTECTED000 y".toList) from rfl]
  rw [rall_cons_match (show phName 0 ≠ [] by decide)
    (show lpre (phName 0) ('T' :: ("HISISPROTECTED000 y".toList)) = true by decide)]
  rw [show (('T' :: ("HISISPROTECTED000 y".toList)).drop (phName 0).length)
      = " y".toList from rfl]
  rw [rall_no_head (show (phName 0).head? = some 'T' from rfl)
    (show 'T' ∉ " y".toList by decide)]
  have hDfull : 'D' ∉ ('x' :: (' ' :: ((c0 :: c1 :: rest) ++ " y".toList))) := by
    intro hm
    rcases List.mem_cons.1 hm with hx | hm2
    · exact absurd hx (by decide)
    rcases List.mem_cons.1 hm2 with hs | hm3
    · exact absurd hs (by decide)
    rcases List.mem_append.1 hm3 with hp | hy
    · exact hD hp
    · exact absurd hy (by decide)
  show restoreMultiDot ('x' :: (' ' :: ((c0 :: c1 :: rest) ++ " y".toList))) = _
  unfold restoreMultiDot
  have hcD : countD ('x' :: (' ' :: ((c0 :: c1 :: rest) ++ " y".toList))) = 0 := by
    unfold countD
    rw [List.countP_eq_zero]
    intro a ha hbeq
    rw [beq_iff_eq] at hbeq
    rw [hbeq] at ha
    exact hDfull ha
  rw [hcD]
  rw [restoreDotLoop_exit
    (linf_false_of_not_mem (show 'D' ∈ ddmTag by decide) hDfull) 1]
  rw [rall_no_head (show dmTag.head? = some 'D' from rfl) hDfull]
  simp

/-- Why the matched text must avoid the letter D: with escaping disabled
    and the single protected pattern DOTMULTI, the restoration of the
    protected match (source lines 376-380) runs before the multi-dot
    restoration (source lines 382-386), whose replace of DOTMULTI by a
    period then rewrites the protected text: the output is x-period-y and
    the matched text no longer occurs in it. -/
theorem protected_dotmulti_destroyed :
    mosesTokenizeLine asciiT .De true false [("DOTMULTI".toList)] emptyDict
        ("x DOTMULTI y".toList) = ("x . y\n".toList) ∧
    linf ("DOTMULTI".toList) ("x . y\n".toList) = false := by
  refine ⟨?_, ?_⟩ <;> decide

/-- C2, amended: with escaping disabled and a single protected pattern, a
    substring matched by the pattern and embedded in otherwise-plain text
    (the line x-space-match-space-y) is preserved byte-for-byte in the
    final output of moses_tokenize_line, exempt from the intermediate
    punctuation and contraction rewriting, and no THISISPROTECTED
    placeholder remains, provided the matched text is at least two
    characters long, its first two characters are not spaces, and it
    contains neither the letter D nor the letter T.  The match itself is
    universally quantified: it may contain commas, periods, apostrophes
    or ampersands, which the pipeline would otherwise rewrite.  Each
    restriction is forced by a defect of the code: escaping rewrites a
    restored match (the counterexample), a second pattern destroys
    earlier protections (C1), and a match containing D collides with the
    multi-dot restoration (a protected DOTMULTI is rewritten to a
    period). -/
theorem c2_protected_preservation_amended (c0 c1 : Char) (rest : List Char)
    (h0 : c0 ≠ ' ') (h1 : c1 ≠ ' ')
    (hD : 'D' ∉ (c0 :: c1 :: rest)) (hT : 'T' ∉ (c0 :: c1 :: rest)) :
    mosesTokenizeLine asciiT Lang.De true false [c0 :: c1 :: rest] emptyDict
        ("x ".toList ++ (c0 :: c1 :: rest) ++ " y".toList)
      = "x ".toList ++ (c0 :: c1 :: rest) ++ " y\n".toList
    ∧ linf (c0 :: c1 :: rest)
        (mosesTokenizeLine asciiT Lang.De true false [c0 :: c1 :: rest] emptyDict
          ("x ".toList ++ (c0 :: c1 :: rest) ++ " y".toList)) = true
    ∧ linf ("THISISPROTECTED".toList)
        (mosesTokenizeLine asciiT Lang.De true false [c0 :: c1 :: rest] emptyDict
          ("x ".toList ++ (c0 :: c1 :: rest) ++ " y".toList)) = false := by
  have hmain : mosesTokenizeLine asciiT Lang.De true false [c0 :: c1 :: rest] emptyDict
      ("x ".toList ++ (c0 :: c1 :: rest) ++ " y".toList)
      = "x ".toList ++ (c0 :: c1 :: rest) ++ " y\n".toList := by
    simp only [mosesTokenizeLine]
    rw [preEscape_c2 c0 c1 rest h0 h1 hD]
    show ensureNL ("x ".toList ++ (c0 :: c1 :: rest) ++ " y".toList)
        = "x ".toList ++ (c0 :: c1 :: rest) ++ " y\n".toList
    unfold ensureNL
    rw [show ("x ".toList ++ (c0 :: c1 :: rest) ++ " y".toList)
        = (("x ".toList ++ (c0 :: c1 :: rest)) ++ [' ']) ++ ['y'] by simp]
    rw [List.getLast?_concat, if_neg (by decide)]
    simp
  refine ⟨hmain, ?_, ?_⟩
  · rw [hmain]
    rw [show ("x ".toList ++ (c0 :: c1 :: rest) ++ " y\n".toList)
        = "x ".toList ++ (c0 :: c1 :: rest) ++ " y\n".toList from rfl]
    exact linf_of_decomp _ _
  · rw [hmain]
    apply linf_false_of_not_mem (show 'T' ∈ ("THISISPROTECTED".toList) by decide)
    intro hm
    rcases List.mem_append.1 hm with h2 | h2
    · rcases List.mem_append.1 h2 with h3 | h3
      · exact absurd h3 (by decide)
      · exact hT h3
    · exact absurd h2 (by decide)

theorem c2_protected_preservation_amended_witness :
    mosesTokenizeLine asciiT Lang.De true false [['a', ',', 'b']] emptyDict
        ("x ".toList ++ ['a', ',', 'b'] ++ " y".toList)
      = "x ".toList ++ ['a', ',', 'b'] ++ " y\n".toList :=
  (c2_protected_preservation_amended 'a' ',' ['b'] (by decide) (by decide)
    (by decide) (by decide)).1
